import Mathlib

/-!
# INN: the ternary search trie pool (`lib/tst_init.c`) and the article parser's test driver

Part I embeds `tst_init` over an explicit heap: `calloc` and `free` act on a list of live
allocations, every call is recorded in a trace, and a store through a pointer that does not
designate a live object is recorded as a fault instead of changing memory.

Part II embeds the driver `ok_article` of `tests/innd/artparse-t.c`. The functions it calls
(`ToWireFmt`, `ARTprepare`, `ARTparse`) are not among the sources; they are modelled from the
specification, and from the states and messages the test expects where the two differ.
-/

set_option autoImplicit false

namespace Tst

/-- A non-NULL `struct node *`: the element `idx` of the node array allocated at address `block`
(addresses of allocations are natural numbers). -/
structure NodePtr where
  block : Nat
  idx : Nat
deriving DecidableEq, Repr

/-- Modelled from the spec: `tst.h` is absent. A trie node has a stored character and three links
(less than, equal, greater than); `tst_init.c` names the equal link `middle`. -/
structure node where
  value : Nat
  left : Option NodePtr
  middle : Option NodePtr
  right : Option NodePtr
deriving DecidableEq, Repr

/-- Modelled from the spec: `tst.h` is absent. A node block has an array of nodes (`node_line`)
and a link to the next block (`next`). -/
structure node_lines where
  node_line : Option NodePtr
  next : Option Nat
deriving DecidableEq, Repr

/-- Modelled from the spec: `tst.h` is absent. The pool handle records the block width, the list of
blocks and the head of the free list (the fields `tst_init.c` assigns), and holds the root links
of the live trie (`head`, which `tst_init` leaves as `calloc` made them). -/
structure tst where
  node_line_width : Int
  node_lines : Option Nat
  free_list : Option NodePtr
  head : List (Option NodePtr) := List.replicate 127 none
deriving DecidableEq, Repr

/-- The contents of one allocation. -/
inductive Obj where
  | tstO (s : tst)
  | linesO (l : node_lines)
  | nodesO (ns : List node)
deriving DecidableEq, Repr

/-- What the allocator and the memory checker record, most recent first. -/
inductive Event where
  | calloc (result : Option Nat)
  | free (p : Nat)
  | fault
deriving DecidableEq, Repr

/-- The heap: live allocations, the next fresh address, the outcomes the allocator will give to the
coming `calloc` calls (`true`: memory is available; past the end of the list it always is), and the
trace of events. -/
structure Heap where
  cells : List (Nat × Obj)
  fresh : Nat
  oracle : List Bool
  trace : List Event
deriving Repr

/-- All-zero bytes read as a `struct node`. -/
def zero_node : node := { value := 0, left := none, middle := none, right := none }

/-- All-zero bytes read as a `struct node_lines`. -/
def zero_lines : node_lines := { node_line := none, next := none }

/-- All-zero bytes read as a `struct tst`. -/
def zero_tst : tst := { node_line_width := 0, node_lines := none, free_list := none }

/-- The object at address `a`, if `a` is a live allocation. -/
def Heap.get (h : Heap) (a : Nat) : Option Obj := h.cells.lookup a

/-- Replace the contents of the first allocation at address `a`. -/
def set_cell (a : Nat) (o : Obj) : List (Nat × Obj) → List (Nat × Obj)
  | [] => []
  | c :: cs => if c.1 = a then (a, o) :: cs else c :: set_cell a o cs

/-- Overwrite the object at address `a`. -/
def Heap.set (h : Heap) (a : Nat) (o : Obj) : Heap :=
  { h with cells := set_cell a o h.cells }

/-- Record an access through a pointer that designates no live object. -/
def Heap.fault (h : Heap) : Heap := { h with trace := Event.fault :: h.trace }

/-- The addresses of the live allocations. -/
def Heap.live (h : Heap) : List Nat := h.cells.map Prod.fst

/-- `calloc(nmemb, size)`: a zero-initialised object for `nmemb` elements, or NULL. A negative
`int` converted to `size_t` asks for more than the address space, so the call fails. -/
def calloc (nmemb : Int) (zeroed : Nat → Obj) (h : Heap) : Option Nat × Heap :=
  if 0 ≤ nmemb ∧ h.oracle.headD true = true then
    (some h.fresh,
      { cells := (h.fresh, zeroed nmemb.toNat) :: h.cells, fresh := h.fresh + 1,
        oracle := h.oracle.tail, trace := Event.calloc (some h.fresh) :: h.trace })
  else
    (none, { h with oracle := h.oracle.tail, trace := Event.calloc none :: h.trace })

/-- `free(p)`: the first live allocation at `p` is released; `free(NULL)` does nothing. -/
def free (p : Option Nat) (h : Heap) : Heap :=
  match p with
  | none => h
  | some a => { h with cells := h.cells.eraseP (fun c => c.1 = a), trace := Event.free a :: h.trace }

/-- Load `p->node_lines` (NULL when `p` designates no live `struct tst`). -/
def ld_node_lines (p : Option Nat) (h : Heap) : Option Nat :=
  match p with
  | none => none
  | some a =>
    match h.get a with
    | some (Obj.tstO s) => s.node_lines
    | _ => none

/-- Load `p->node_line` (NULL when `p` designates no live `struct node_lines`). -/
def ld_node_line (p : Option Nat) (h : Heap) : Option NodePtr :=
  match p with
  | none => none
  | some a =>
    match h.get a with
    | some (Obj.linesO l) => l.node_line
    | _ => none

/-- Load `p->middle` (NULL when `p` designates no node of a live block). -/
def ld_middle (p : Option NodePtr) (h : Heap) : Option NodePtr :=
  match p with
  | none => none
  | some q =>
    match h.get q.block with
    | some (Obj.nodesO ns) => (ns.get? q.idx).bind node.middle
    | _ => none

/-- Store into a field of the `struct tst` at `p`. -/
def st_tst (p : Option Nat) (f : tst → tst) (h : Heap) : Heap :=
  match p with
  | none => h.fault
  | some a =>
    match h.get a with
    | some (Obj.tstO s) => h.set a (Obj.tstO (f s))
    | _ => h.fault

/-- Store into a field of the `struct node_lines` at `p`. -/
def st_lines (p : Option Nat) (f : node_lines → node_lines) (h : Heap) : Heap :=
  match p with
  | none => h.fault
  | some a =>
    match h.get a with
    | some (Obj.linesO l) => h.set a (Obj.linesO (f l))
    | _ => h.fault

/-- Store `p->middle = v`. The store is a fault when `p` is NULL, when its block is not live, or
when its index is outside the block. -/
def st_middle (p : Option NodePtr) (v : Option NodePtr) (h : Heap) : Heap :=
  match p with
  | none => h.fault
  | some q =>
    match h.get q.block with
    | some (Obj.nodesO ns) =>
      match ns.get? q.idx with
      | some n => h.set q.block (Obj.nodesO (ns.set q.idx { n with middle := v }))
      | none => h.fault
    | _ => h.fault

/-- The C expression `&(line[i])`. -/
def node_at (line : Option NodePtr) (i : Nat) : Option NodePtr :=
  line.map (fun q => { q with idx := q.idx + i })

/-- The loop `for (i = 1; i < width; i++)` of `tst_init`, from the state before the test of `i`.
The first argument bounds the number of iterations. -/
def tst_init_loop (width : Int) (tst : Option Nat) :
    Nat → Nat → Option NodePtr → Heap → Option NodePtr × Heap
  | 0, _, current_node, h => (current_node, h)
  | fuel + 1, i, current_node, h =>
    if (i : Int) < width then
      -- current_node->middle = &(tst->node_lines->node_line[i]);
      let h1 := st_middle current_node (node_at (ld_node_line (ld_node_lines tst h) h) i) h
      -- current_node = current_node->middle;
      tst_init_loop width tst fuel (i + 1) (ld_middle current_node h1) h1
    else (current_node, h)

/-- The function `tst_init(width)` run on heap `h0`: the returned pointer and the final heap. -/
def tst_init (width : Int) (h0 : Heap) : Option Nat × Heap :=
  -- if((tst = calloc(1, sizeof(struct tst))) == NULL) return NULL;
  let (tst, h1) := calloc 1 (fun _ => Obj.tstO zero_tst) h0
  if tst = none then (none, h1) else
  -- if ((tst->node_lines = calloc(1, sizeof(struct node_lines))) == NULL)
  let (r2, h2) := calloc 1 (fun _ => Obj.linesO zero_lines) h1
  let h3 := st_tst tst (fun s => { s with node_lines := r2 }) h2
  if ld_node_lines tst h3 = none then
    -- free(tst); return NULL;
    (none, free tst h3)
  else
  -- tst->node_line_width = width;
  let h4 := st_tst tst (fun s => { s with node_line_width := width }) h3
  -- tst->node_lines->next = NULL;
  let h5 := st_lines (ld_node_lines tst h4) (fun l => { l with next := none }) h4
  -- if ((tst->node_lines->node_line = calloc(width, sizeof(struct node))) == NULL)
  let (r3, h6) := calloc width (fun n => Obj.nodesO (List.replicate n zero_node)) h5
  let h7 := st_lines (ld_node_lines tst h6)
    (fun l => { l with node_line := r3.map (fun a => { block := a, idx := 0 }) }) h6
  if ld_node_line (ld_node_lines tst h7) h7 = none then
    -- free(tst->node_lines); free(tst); return NULL;
    (none, free tst (free (ld_node_lines tst h7) h7))
  else
  -- current_node = tst->node_lines->node_line;
  let current_node := ld_node_line (ld_node_lines tst h7) h7
  -- tst->free_list = current_node;
  let h8 := st_tst tst (fun s => { s with free_list := current_node }) h7
  -- for (i = 1; i < width; i++) ...
  let (current_node, h9) := tst_init_loop width tst width.toNat 1 current_node h8
  -- current_node->middle = NULL; return tst;
  (tst, st_middle current_node none h9)

/-- The empty heap in which every allocation succeeds. -/
def heap0 : Heap := { cells := [], fresh := 0, oracle := [], trace := [] }

/-- The allocator grants the `k`-th coming `calloc` call of heap `h`. -/
def Heap.grants (h : Heap) (k : Nat) : Prop := h.oracle.getD k true = true

instance (h : Heap) (k : Nat) : Decidable (h.grants k) := by
  unfold Heap.grants; infer_instance

/-- The block of `w` nodes in which the nodes before index `i` are already linked to their
successor and the others are still zero. -/
def linked (b : Nat) (w i : Nat) : List node :=
  (List.range w).map fun x =>
    { zero_node with middle := if x + 1 < i then some { block := b, idx := x + 1 } else none }

/-- The events a heap `h1` has recorded since the heap `h0`, most recent first. -/
def events_since (h0 h1 : Heap) : List Event := h1.trace.take (h1.trace.length - h0.trace.length)

/-- The addresses `calloc` returned in a list of events. -/
def allocated : List Event → List Nat
  | [] => []
  | Event.calloc (some a) :: es => a :: allocated es
  | _ :: es => allocated es

/-- The addresses passed to `free` in a list of events. -/
def freed : List Event → List Nat
  | [] => []
  | Event.free a :: es => a :: freed es
  | _ :: es => freed es

/-- Modelled from the spec: the pop of the pool's allocation (§4.4 `Allocate()`, whose source is
absent): take the head of the free list and set `free_list` to the `middle` link of the node
taken. On an empty free list nothing is popped; growth is not modelled. -/
def pop_free (tst : Option Nat) (h : Heap) : Option NodePtr × Heap :=
  match tst with
  | none => (none, h)
  | some a =>
    match h.get a with
    | some (Obj.tstO s) =>
      match s.free_list with
      | none => (none, h)
      | some q => (some q, st_tst tst (fun s => { s with free_list := ld_middle (some q) h }) h)
    | _ => (none, h)

/-- Pop the free list `n` times, collecting the nodes obtained; `none` as soon as a pop finds the
free list empty. -/
def pop_many (tst : Option Nat) : Nat → Heap → Option (List NodePtr × Heap)
  | 0, h => some ([], h)
  | n + 1, h =>
    match pop_free tst h with
    | (none, _) => none
    | (some q, h1) => (pop_many tst n h1).map fun r => (q :: r.1, r.2)

/-- Load `p->free_list` (NULL when `p` designates no live `struct tst`). -/
def ld_free_list (p : Option Nat) (h : Heap) : Option NodePtr :=
  match p with
  | none => none
  | some a =>
    match h.get a with
    | some (Obj.tstO s) => s.free_list
    | _ => none

/-- The block records reached from `p` along `next`, at most `fuel` of them. -/
def block_list (h : Heap) : Nat → Option Nat → List Nat
  | 0, _ => []
  | _ + 1, none => []
  | fuel + 1, some a =>
    match h.get a with
    | some (Obj.linesO l) => a :: block_list h fuel l.next
    | _ => []

/-- The number of nodes of the array a block record points to. -/
def block_size (h : Heap) (a : Nat) : Nat :=
  match ld_node_line (some a) h with
  | none => 0
  | some q =>
    match h.get q.block with
    | some (Obj.nodesO ns) => ns.length - q.idx
    | _ => 0

/-- A heap whose three most recent allocations are a node block at `b`, its block record at `l`
and a pool handle at `t`. -/
def pool_heap (t l b : Nat) (T : tst) (ns : List node) (h : Heap) : Heap :=
  { h with cells := (b, Obj.nodesO ns)
      :: (l, Obj.linesO { node_line := some { block := b, idx := 0 }, next := none })
      :: (t, Obj.tstO T) :: h.cells }

/-- The heap `tst_init` returns when its first allocation fails. -/
def fail1_heap (h : Heap) : Heap :=
  { cells := h.cells, fresh := h.fresh, oracle := h.oracle.tail,
    trace := Event.calloc none :: h.trace }

/-- The heap `tst_init` returns when its second allocation fails. -/
def fail2_heap (h : Heap) : Heap :=
  { cells := h.cells, fresh := h.fresh + 1, oracle := h.oracle.tail.tail,
    trace := Event.free h.fresh :: Event.calloc none :: Event.calloc (some h.fresh) :: h.trace }

/-- The heap `tst_init` returns when its third allocation fails. -/
def fail3_heap (h : Heap) : Heap :=
  { cells := h.cells, fresh := h.fresh + 2, oracle := h.oracle.tail.tail.tail,
    trace := Event.free h.fresh :: Event.free (h.fresh + 1) :: Event.calloc none
      :: Event.calloc (some (h.fresh + 1)) :: Event.calloc (some h.fresh) :: h.trace }

/-- The heap after the three successful allocations of `tst_init` on heap `h`, with the node
block holding `ns`. -/
def init_heap (width : Int) (ns : List node) (h : Heap) : Heap :=
  pool_heap h.fresh (h.fresh + 1) (h.fresh + 2)
    { node_line_width := width, node_lines := some (h.fresh + 1),
      free_list := some { block := h.fresh + 2, idx := 0 } }
    ns
    { h with fresh := h.fresh + 3, oracle := h.oracle.tail.tail.tail,
             trace := Event.calloc (some (h.fresh + 2)) :: Event.calloc (some (h.fresh + 1))
               :: Event.calloc (some h.fresh) :: h.trace }

/-- A memory access of the threading part of `tst_init`: an index `i` used in `node_line[i]`, or a
store to the `middle` field through the pointer `p`. -/
inductive Access where
  | index (i : Nat)
  | store (p : Option NodePtr)
deriving DecidableEq, Repr

/-- The accesses the loop of `tst_init` makes, in order: each iteration uses the index `i` in
`&(tst->node_lines->node_line[i])` and stores through `current_node`; the states are those of
`tst_init_loop`. -/
def tst_init_loop_log (width : Int) (tst : Option Nat) :
    Nat → Nat → Option NodePtr → Heap → List Access
  | 0, _, _, _ => []
  | fuel + 1, i, current_node, h =>
    if (i : Int) < width then
      let h1 := st_middle current_node (node_at (ld_node_line (ld_node_lines tst h) h) i) h
      Access.index i :: Access.store current_node
        :: tst_init_loop_log width tst fuel (i + 1) (ld_middle current_node h1) h1
    else []

/-- The accesses `tst_init(width)` makes to the node array on heap `h0`, in order: those of the
loop, then the store `current_node->middle = NULL`; none on the paths that return NULL. -/
def tst_init_log (width : Int) (h0 : Heap) : List Access :=
  let (tst, h1) := calloc 1 (fun _ => Obj.tstO zero_tst) h0
  if tst = none then [] else
  let (r2, h2) := calloc 1 (fun _ => Obj.linesO zero_lines) h1
  let h3 := st_tst tst (fun s => { s with node_lines := r2 }) h2
  if ld_node_lines tst h3 = none then []
  else
  let h4 := st_tst tst (fun s => { s with node_line_width := width }) h3
  let h5 := st_lines (ld_node_lines tst h4) (fun l => { l with next := none }) h4
  let (r3, h6) := calloc width (fun n => Obj.nodesO (List.replicate n zero_node)) h5
  let h7 := st_lines (ld_node_lines tst h6)
    (fun l => { l with node_line := r3.map (fun a => { block := a, idx := 0 }) }) h6
  if ld_node_line (ld_node_lines tst h7) h7 = none then []
  else
  let current_node := ld_node_line (ld_node_lines tst h7) h7
  let h8 := st_tst tst (fun s => { s with free_list := current_node }) h7
  tst_init_loop_log width tst width.toNat 1 current_node h8
    ++ [Access.store (tst_init_loop width tst width.toNat 1 current_node h8).1]

/-- The nodes on the free list: the chain that starts at `p` and follows the `middle` links, at
most `fuel` nodes of it. -/
def free_chain (h : Heap) : Nat → Option NodePtr → List NodePtr
  | 0, _ => []
  | _ + 1, none => []
  | fuel + 1, some q => q :: free_chain h fuel (ld_middle (some q) h)

/-- Load `p->left` (NULL when `p` designates no node of a live block). -/
def ld_left (p : Option NodePtr) (h : Heap) : Option NodePtr :=
  match p with
  | none => none
  | some q =>
    match h.get q.block with
    | some (Obj.nodesO ns) => (ns.get? q.idx).bind node.left
    | _ => none

/-- Load `p->right` (NULL when `p` designates no node of a live block). -/
def ld_right (p : Option NodePtr) (h : Heap) : Option NodePtr :=
  match p with
  | none => none
  | some q =>
    match h.get q.block with
    | some (Obj.nodesO ns) => (ns.get? q.idx).bind node.right
    | _ => none

/-- The nodes linked into the trie below `p`: `p` and the nodes reached from it along the three
links, to depth `fuel`. -/
def reach (h : Heap) : Nat → Option NodePtr → List NodePtr
  | 0, _ => []
  | _ + 1, none => []
  | fuel + 1, some q =>
    q :: (reach h fuel (ld_left (some q) h) ++ reach h fuel (ld_middle (some q) h)
      ++ reach h fuel (ld_right (some q) h))

/-- The live nodes of a pool: those linked into the trie from one of its roots. -/
def live_nodes (h : Heap) (s : tst) (fuel : Nat) : List NodePtr :=
  s.head.flatMap (reach h fuel)

end Tst

namespace Art

/-- The channel states `artparse-t.c` names. -/
inductive CHANNELSTATE where
  | CSgetheader
  | CSgetbody
  | CSeatarticle
  | CSgotarticle
  | CSgotlargearticle
  | CSnoarticle
deriving DecidableEq, Repr

/-- Modelled from the spec: `innd.h` is absent. The fields of a channel the test and the parser
use: `In` holds the bytes `In.data[0 .. In.used)`, `Start` is the offset of the article being
parsed, `Next` the first byte not yet consumed, `Error` the rejection message; `HeaderLines` and
`BodyLines` are the resumption data of the parser (lines consumed so far in the header block and
in the body). -/
structure CHANNEL where
  State : CHANNELSTATE
  In : List Char
  Start : Nat
  Next : Nat
  Error : String
  HeaderLines : Nat
  BodyLines : Nat
deriving DecidableEq, Repr

/-- Modelled from the spec: the configuration the parser consumes (§6): the maximum article size
(`innconf->maxartsize` in the test), the maximum header line length, and the names of the headers
that must have a non-blank value (§4.2, "certain mandatory headers"). -/
structure Conf where
  maxartsize : Nat
  maxheadersize : Nat
  mandatory : List (List Char)
deriving Repr

/-- The carriage return. -/
def CR : Char := Char.ofNat 13
/-- The line feed. -/
def LF : Char := Char.ofNat 10
/-- The dot. -/
def DOT : Char := Char.ofNat 46
/-- The colon. -/
def COLON : Char := Char.ofNat 58
/-- The space. -/
def SP : Char := Char.ofNat 32
/-- The horizontal tab. -/
def TAB : Char := Char.ofNat 9
/-- The NUL byte. -/
def NUL : Char := Char.ofNat 0

/-- The lines of an article in local form: the pieces between line feeds; a last piece without a
line feed is a line too. -/
def native_lines : List Char → List (List Char)
  | [] => []
  | c :: r =>
    if c = LF then [] :: native_lines r
    else
      match native_lines r with
      | [] => [[c]]
      | l :: ls => (c :: l) :: ls

/-- Dot-stuffing: a line that begins with a dot gets an extra leading dot. -/
def stuff (l : List Char) : List Char :=
  match l with
  | [] => []
  | c :: r => if c = DOT then DOT :: c :: r else c :: r

/-- Undo dot-stuffing: a line beginning with two dots has the first dot removed. -/
def unstuff (l : List Char) : List Char :=
  match l with
  | c :: d :: r => if c = DOT ∧ d = DOT then d :: r else c :: d :: r
  | l => l

/-- Modelled from the spec: the encoder of §4.1 (`ToWireFmt`, absent) on a sequence of lines: each
line is dot-stuffed and terminated by CRLF, and the article is terminated by a line consisting of a
single dot followed by CRLF. -/
def encode_lines : List (List Char) → List Char
  | [] => [DOT, CR, LF]
  | l :: ls => stuff l ++ CR :: LF :: encode_lines ls

/-- Modelled from the spec: `ToWireFmt(article, len, &wirelen)` (absent): the wire form of an
article given in local form; `wirelen` is the length of the result. -/
def ToWireFmt (article : List Char) : List Char := encode_lines (native_lines article)

/-- The bytes before the first CRLF of a buffer and the bytes after it, if the buffer holds a
complete line. -/
def take_line : List Char → Option (List Char × List Char)
  | [] => none
  | c :: r =>
    if c = CR ∧ r.head? = some LF then some ([], r.tail)
    else (take_line r).map fun p => (c :: p.1, p.2)

/-- The terminal classifications of a channel. -/
def is_terminal (s : CHANNELSTATE) : Bool :=
  match s with
  | .CSgotarticle | .CSgotlargearticle | .CSnoarticle => true
  | _ => false

/-- Space or tab. -/
def is_white (c : Char) : Bool := c = SP || c = TAB

/-- The text of a header line before its first colon. -/
def header_name (line : List Char) : List Char := line.takeWhile (fun c => c != COLON)

/-- The text of a header line after its first colon. -/
def after_colon (line : List Char) : List Char := (line.dropWhile (fun c => c != COLON)).drop 1

/-- A text without its trailing spaces and tabs. -/
def strip_white (l : List Char) : List Char := (l.reverse.dropWhile is_white).reverse

/-- Modelled from the spec: the header validator of §4.2 (absent) on one line of the header block,
given as it is on the wire. The first rule violated gives the message: length including the
terminator above the maximum; a NUL byte; for a line that is not a continuation line, no colon
followed by a space; white space before the colon; an all-blank value of a mandatory header. The
quoted text follows the expected messages of `artparse-t.c`: the whole line for the colon-space
rule, the name without trailing white space otherwise. -/
def header_error (conf : Conf) (raw : List Char) : Option String :=
  let line := unstuff raw
  if conf.maxheadersize < raw.length + 2 then
    some ("437 Header line too long (" ++ toString (raw.length + 2) ++ " bytes)")
  else if NUL ∈ line then some "437 Nul character in header"
  else if line.head?.any is_white then none
  else if ¬ (COLON ∈ line ∧ (after_colon line).head? = some SP) then
    some ("437 No colon-space in \"" ++ String.mk line ++ "\" header")
  else if (header_name line).getLast?.any is_white then
    some ("437 Space before colon in \"" ++ String.mk (strip_white (header_name line))
      ++ "\" header")
  else if header_name line ∈ conf.mandatory ∧ (after_colon line).all is_white then
    some ("437 Body of header is all blanks in \"" ++ String.mk (header_name line) ++ "\" header")
  else none

/-- The parse state of a channel: its `State`, its `Error` and the resumption data. -/
structure Parse where
  State : CHANNELSTATE
  Error : String
  HeaderLines : Nat
  BodyLines : Nat
deriving DecidableEq, Repr

/-- The parse state held in a channel. -/
def CHANNEL.parse (cp : CHANNEL) : Parse :=
  { State := cp.State, Error := cp.Error, HeaderLines := cp.HeaderLines,
    BodyLines := cp.BodyLines }

/-- Record a rejection message; the first message of an article is kept. -/
def ARTerror (p : Parse) (msg : String) : Parse :=
  if p.Error = "" then { p with Error := msg } else p

/-- The message of the size limit (§6). -/
def large_message (size limit : Nat) : String :=
  "437 Article of " ++ toString size ++ " bytes exceeds local limit of " ++ toString limit
    ++ " bytes"

/-- Modelled from the spec: the parser's action on the end-of-article sentinel line (§4.3 step 6,
absent source); `size` is the number of bytes from `Start` to the end of the sentinel line. An
article above the size limit, or one being drained, ends as too large with the size message. An
article with no header line and no body line gets the message "Empty article" (§4.2); its state
is the one `ok_article` expects: no-article when the sentinel follows one blank line (the wire
form of 5 bytes), got-article when the sentinel is the only line. Any other article ends as
got-article, with "No body" when it has no body line and no earlier message. -/
def close_article (conf : Conf) (p : Parse) (size : Nat) : Parse :=
  if p.State = .CSeatarticle ∨ conf.maxartsize < size then
    { p with State := .CSgotlargearticle, Error := large_message size conf.maxartsize }
  else if p.HeaderLines = 0 ∧ p.BodyLines = 0 then
    { p with State := if p.State = .CSgetbody then .CSnoarticle else .CSgotarticle,
             Error := "437 Empty article" }
  else if p.BodyLines = 0 then
    { ARTerror p "437 No body" with State := .CSgotarticle }
  else { p with State := .CSgotarticle }

/-- Modelled from the spec: the parser's action on one complete line other than the sentinel
(§4.2, §4.3 steps 3 to 5, absent source). In the header block a blank line opens the body ("No
headers" if it is the very first line) and any other line is validated; a body line is checked for
NUL; a line of an article being drained is skipped. As `ok_article` expects, a violation is
recorded in `Error` and does not change the state. -/
def content_line (conf : Conf) (p : Parse) (raw : List Char) : Parse :=
  match p.State with
  | .CSgetheader =>
    if raw = [] then
      if p.HeaderLines = 0 then ARTerror { p with State := .CSgetbody } "437 No headers"
      else { p with State := .CSgetbody }
    else
      match header_error conf raw with
      | some msg => ARTerror { p with HeaderLines := p.HeaderLines + 1 } msg
      | none => { p with HeaderLines := p.HeaderLines + 1 }
  | .CSgetbody =>
    if NUL ∈ unstuff raw then
      ARTerror { p with BodyLines := p.BodyLines + 1 } "437 Nul character in body"
    else { p with BodyLines := p.BodyLines + 1 }
  | _ => p

/-- Modelled from the spec: the parser's action on the complete line `raw` (absent source);
`size` is the number of bytes from `Start` to the end of the line. The sentinel closes the article;
any other line is handled by `content_line`, and an article whose consumed size crosses the limit
is drained from then on. -/
def line_parse (conf : Conf) (p : Parse) (raw : List Char) (size : Nat) : Parse :=
  if raw = [DOT] then close_article conf p size
  else if conf.maxartsize < size then { content_line conf p raw with State := .CSeatarticle }
  else content_line conf p raw

/-- The channel after the parser has consumed the complete line `raw` found at `Next`: `Next`
moves past the line and its CRLF. -/
def line_step (conf : Conf) (cp : CHANNEL) (raw : List Char) : CHANNEL :=
  let next := cp.Next + raw.length + 2
  let p := line_parse conf cp.parse raw (next - cp.Start)
  { cp with State := p.State, Error := p.Error, HeaderLines := p.HeaderLines,
            BodyLines := p.BodyLines, Next := next }

/-- The channel after the bytes `x` have been received: they are appended to its buffer. -/
def CHANNEL.recv (cp : CHANNEL) (x : List Char) : CHANNEL := { cp with In := cp.In ++ x }

/-- The channel with its buffer replaced by `x`. -/
def CHANNEL.with_In (cp : CHANNEL) (x : List Char) : CHANNEL := { cp with In := x }

/-- The line loop of the parser; the first argument bounds the number of lines consumed. -/
def parse_lines (conf : Conf) : Nat → CHANNEL → CHANNEL
  | 0, cp => cp
  | fuel + 1, cp =>
    if is_terminal cp.State then cp
    else
      match take_line (cp.In.drop cp.Next) with
      | none => cp
      | some (raw, _) => parse_lines conf fuel (line_step conf cp raw)

/-- Modelled from the spec: `ARTparse(cp)` (`innd/art.c`, absent), the parse step of §4.3: resume
at `Next`, consume the complete lines available in the buffer, stop at a terminal state or when
the buffer ends inside a line. Every line takes at least two bytes, so the number of unread bytes
bounds the number of lines. -/
def ARTparse (conf : Conf) (cp : CHANNEL) : CHANNEL :=
  parse_lines conf (cp.In.length - cp.Next) cp

/-- Modelled from the spec: `ARTprepare(cp)` (absent), `prepare` of §6: the parse state is reset
for a fresh article that starts at the current position of the channel. -/
def ARTprepare (cp : CHANNEL) : CHANNEL :=
  { cp with State := .CSgetheader, Start := cp.Next, Error := "", HeaderLines := 0,
            BodyLines := 0 }

/-- The channel of `fake_channel()`: all fields zero, `State = CSgetheader`. -/
def fake_channel : CHANNEL :=
  { State := .CSgetheader, In := [], Start := 0, Next := 0, Error := "", HeaderLines := 0,
    BodyLines := 0 }

/-- The configuration of `fake_innconf()`: `maxartsize = 8 * 1024`; the header line limit is the
1024 bytes of the spec and the mandatory header is the sender header. -/
def fake_innconf : Conf :=
  { maxartsize := 8 * 1024, maxheadersize := 1024, mandatory := ["From".toList] }

/-- The slow loop of `ok_article`: the wire bytes are appended one at a time and `ARTparse` is
called after each; the loop is left when a state other than `CSeatarticle`, `CSgetheader` and
`CSgetbody` is seen before the last byte. -/
def slow_loop (conf : Conf) : List Char → CHANNEL → CHANNEL
  | [], cp => cp
  | c :: rest, cp =>
    let cp1 := ARTparse conf (cp.recv [c])
    if rest ≠ [] ∧ cp1.State ≠ .CSeatarticle ∧ cp1.State ≠ .CSgetheader
        ∧ cp1.State ≠ .CSgetbody then cp1
    else slow_loop conf rest cp1

/-- The channel at the end of `ok_article` before its three checks: the wire form of `article` is
placed after `filler` (the test uses `offset` NUL bytes) and parsed at once, or byte by byte when
`slow` is set. -/
def ok_article (conf : Conf) (article filler : List Char) (slow : Bool) : CHANNEL :=
  let wire := ToWireFmt article
  let cp := fake_channel
  let cp := { cp with Start := filler.length, Next := filler.length }
  let cp := { cp with In := filler }
  let cp := ARTprepare cp
  if slow then slow_loop conf wire cp
  else ARTparse conf (cp.recv wire)

/-- The channel `ok_article` has built when it starts to deliver the article. -/
def start_channel (filler : List Char) : CHANNEL :=
  ARTprepare { fake_channel with Start := filler.length, Next := filler.length, In := filler }

/-- The channel whose buffer has the bytes `pre` put in front: every offset moves by the length
of `pre`. -/
def CHANNEL.shift (cp : CHANNEL) (pre : List Char) : CHANNEL :=
  { cp with In := pre ++ cp.In, Start := cp.Start + pre.length, Next := cp.Next + pre.length }

/-- The channel after the lines `ls` of an article, in wire form at `Next`, have been consumed. -/
def steps (conf : Conf) : CHANNEL → List (List Char) → CHANNEL
  | cp, [] => cp
  | cp, l :: ls => steps conf (line_step conf cp (stuff l)) ls

/-- The parse state after the lines `ls` of an article have been consumed, `size` bytes of the
article having been consumed before them. -/
def psteps (conf : Conf) : Parse → Nat → List (List Char) → Parse
  | p, _, [] => p
  | p, size, l :: ls =>
    psteps conf (line_parse conf p (stuff l) (size + (stuff l).length + 2))
      (size + (stuff l).length + 2) ls

/-- The number of wire bytes of the lines `ls`, without the sentinel line. -/
def lines_size : List (List Char) → Nat
  | [] => 0
  | l :: ls => (stuff l).length + 2 + lines_size ls

/-- The parse state of a fresh article. -/
def fresh_parse : Parse :=
  { State := .CSgetheader, Error := "", HeaderLines := 0, BodyLines := 0 }

/-- An article obeys the validator rules of §4.2: its lines before the first empty line are at
least one and each passes `header_error`, the empty line is there, and it is followed by at least
one body line, none with a NUL byte. -/
def obeys_rules (conf : Conf) (ls : List (List Char)) : Prop :=
  ls.takeWhile (fun l => l ≠ []) ≠ [] ∧
  (∀ h ∈ ls.takeWhile (fun l => l ≠ []), header_error conf (stuff h) = none) ∧
  ls.dropWhile (fun l => l ≠ []) ≠ [] ∧
  (ls.dropWhile (fun l => l ≠ [])).tail ≠ [] ∧
  (∀ b ∈ (ls.dropWhile (fun l => l ≠ [])).tail, NUL ∉ b)

instance (conf : Conf) (ls : List (List Char)) : Decidable (obeys_rules conf ls) := by
  unfold obeys_rules; infer_instance

/-- The channels of the slow loop of `ok_article`, one after each call of `ARTparse`, in order;
the last one is the channel the loop ends with. -/
def slow_trace (conf : Conf) : List Char → CHANNEL → List CHANNEL
  | [], _ => []
  | c :: rest, cp =>
    let cp1 := ARTparse conf (cp.recv [c])
    if rest ≠ [] ∧ cp1.State ≠ .CSeatarticle ∧ cp1.State ≠ .CSgetheader
        ∧ cp1.State ≠ .CSgetbody then [cp1]
    else cp1 :: slow_trace conf rest cp1

end Art

namespace Tst

theorem linked_length (b : Nat) (w i : Nat) : (linked b w i).length = w := by
  simp [linked]

theorem linked_get? (b : Nat) (w i x : Nat) (hx : x < w) :
    (linked b w i).get? x =
      some { zero_node with middle := if x + 1 < i then some { block := b, idx := x + 1 } else none } := by
  simp [linked, List.getElem?_map, List.getElem?_range hx]

theorem linked_zero (b : Nat) (w : Nat) : linked b w 1 = List.replicate w zero_node := by
  apply List.ext_get?
  intro x
  by_cases hx : x < w
  · rw [linked_get? b w 1 x hx]
    simp [List.getElem?_replicate, hx, zero_node]
  · simp [linked, List.getElem?_replicate, hx]

theorem linked_step (b : Nat) (w k : Nat) (hk : k + 1 < w) (n : node)
    (hn : (linked b w (k + 1)).get? k = some n) :
    (linked b w (k + 1)).set k { n with middle := some { block := b, idx := k + 1 } }
      = linked b w (k + 2) := by
  have hkw : k < w := by omega
  rw [linked_get? b w (k + 1) k hkw] at hn
  simp at hn
  subst hn
  apply List.ext_get?
  intro x
  by_cases hx : x < w
  · rw [linked_get? b w (k + 2) x hx]
    by_cases hxk : x = k
    · subst hxk
      simp [List.getElem?_set, linked_length, hx]
    · have h1 : (x + 1 < k + 1 ↔ x + 1 < k + 2) := by omega
      have := linked_get? b w (k + 1) x hx
      simp only [List.get?_eq_getElem?] at this
      simp [List.getElem?_set, Ne.symm hxk, this, h1]
  · have hr : (List.range w)[x]? = none := by simp; omega
    have hkx : k ≠ x := by omega
    simp [linked, List.getElem?_set, hr, hkx]

theorem lookup_cons_eq (a : Nat) (o : Obj) (cs : List (Nat × Obj)) :
    List.lookup a ((a, o) :: cs) = some o := by
  simp [List.lookup]

theorem lookup_cons_ne {a a1 : Nat} (hne : a ≠ a1) (o : Obj) (cs : List (Nat × Obj)) :
    List.lookup a ((a1, o) :: cs) = List.lookup a cs := by
  have : (a == a1) = false := by simpa using hne
  simp [List.lookup, this]

theorem loop_spec (w : Nat) (t l b : Nat) (T : tst) (hT : T.node_lines = some l)
    (hbl : b ≠ l) (hbt : b ≠ t) (hlt : l ≠ t) (h : Heap) :
    ∀ fuel k, k + 1 ≤ w → w ≤ fuel + (k + 1) →
      tst_init_loop (w : Int) (some t) fuel (k + 1) (some { block := b, idx := k })
          (pool_heap t l b T (linked b w (k + 1)) h)
        = (some { block := b, idx := w - 1 }, pool_heap t l b T (linked b w w) h) := by
  intro fuel
  induction fuel with
  | zero =>
    intro k h1 h2
    have : w = k + 1 := by omega
    subst this
    simp [tst_init_loop]
  | succ fuel ih =>
    intro k h1 h2
    unfold tst_init_loop
    by_cases hlt2 : ((k + 1 : Nat) : Int) < (w : Int)
    · have hkw : k + 1 < w := by exact_mod_cast hlt2
      have hk : k < w := by omega
      rw [if_pos hlt2]
      have hg := linked_get? b w (k + 1) k hk
      have hg2 := linked_get? b w (k + 2) k hk
      have hstep := linked_step b w k hkw _ hg
      have e1 : ld_node_lines (some t) (pool_heap t l b T (linked b w (k + 1)) h) = some l := by
        simp [ld_node_lines, pool_heap, Heap.get, lookup_cons_eq, lookup_cons_ne (Ne.symm hbt),
          lookup_cons_ne (Ne.symm hlt), hT]
      have e2 : ld_node_line (some l) (pool_heap t l b T (linked b w (k + 1)) h)
          = some { block := b, idx := 0 } := by
        simp [ld_node_line, pool_heap, Heap.get, lookup_cons_eq, lookup_cons_ne (Ne.symm hbl)]
      have e3 : st_middle (some { block := b, idx := k }) (some { block := b, idx := k + 1 })
          (pool_heap t l b T (linked b w (k + 1)) h) = pool_heap t l b T (linked b w (k + 2)) h := by
        simp only [st_middle, pool_heap, Heap.get, lookup_cons_eq, hg, Heap.set, set_cell]
        simp [hstep]
      have e4 : ld_middle (some { block := b, idx := k }) (pool_heap t l b T (linked b w (k + 2)) h)
          = some { block := b, idx := k + 1 } := by
        simp only [ld_middle, pool_heap, Heap.get, lookup_cons_eq, hg2]
        simp
      simp only [e1, e2, node_at, Option.map, Nat.zero_add, e3, e4]
      exact ih (k + 1) hkw (by omega)
    · have : w = k + 1 := by
        have : ¬ (k + 1 < w) := by intro hh; exact hlt2 (by exact_mod_cast hh)
        omega
      subst this
      rw [if_neg hlt2]
      simp

theorem calloc_granted (n : Int) (z : Nat → Obj) (h : Heap) (hn : 0 ≤ n)
    (g : h.oracle.headD true = true) :
    calloc n z h = (some h.fresh,
      { cells := (h.fresh, z n.toNat) :: h.cells, fresh := h.fresh + 1,
        oracle := h.oracle.tail, trace := Event.calloc (some h.fresh) :: h.trace }) := by
  unfold calloc
  rw [if_pos ⟨hn, g⟩]

theorem calloc_refused (n : Int) (z : Nat → Obj) (h : Heap)
    (g : ¬ (0 ≤ n ∧ h.oracle.headD true = true)) :
    calloc n z h = (none,
      { cells := h.cells, fresh := h.fresh, oracle := h.oracle.tail,
        trace := Event.calloc none :: h.trace }) := by
  unfold calloc
  rw [if_neg g]

theorem tst_init_fail1 (width : Int) (h : Heap) (g0 : ¬ h.oracle.headD true = true) :
    tst_init width h = (none, fail1_heap h) := by
  unfold tst_init
  rw [calloc_refused _ _ _ (fun hh => g0 hh.2)]
  rfl

theorem tst_init_fail2 (width : Int) (h : Heap) (g0 : h.oracle.headD true = true)
    (g1 : ¬ h.oracle.tail.headD true = true) :
    tst_init width h = (none, fail2_heap h) := by
  unfold tst_init
  rw [calloc_granted _ _ _ (by decide) g0]
  simp only [reduceCtorEq, if_false]
  rw [calloc_refused _ _ _ (fun hh => g1 hh.2)]
  simp [st_tst, Heap.get, lookup_cons_eq, Heap.set, set_cell, ld_node_lines, free, fail2_heap]

theorem tst_init_fail3 (width : Int) (h : Heap) (g0 : h.oracle.headD true = true)
    (g1 : h.oracle.tail.headD true = true)
    (g2 : ¬ (0 ≤ width ∧ h.oracle.tail.tail.headD true = true)) :
    tst_init width h = (none, fail3_heap h) := by
  unfold tst_init
  rw [calloc_granted _ _ _ (by decide) g0]
  simp only [reduceCtorEq, if_false]
  rw [calloc_granted _ _ _ (by decide) g1]
  simp only [st_tst, Heap.get, lookup_cons_eq, Heap.set, set_cell, ld_node_lines, st_lines,
    lookup_cons_ne (Nat.succ_ne_self h.fresh).symm, if_true, if_false,
    Nat.succ_ne_self, reduceCtorEq]
  rw [calloc_refused _ _ _ g2]
  simp [st_tst, Heap.get, lookup_cons_eq, Heap.set, set_cell, ld_node_lines, ld_node_line,
    st_lines, free, fail3_heap, lookup_cons_ne (Nat.succ_ne_self h.fresh).symm]

theorem tst_init_pass (width : Int) (h : Heap) (g0 : h.oracle.headD true = true)
    (g1 : h.oracle.tail.headD true = true)
    (g2 : 0 ≤ width ∧ h.oracle.tail.tail.headD true = true) :
    tst_init width h =
      (some h.fresh,
        st_middle
          (tst_init_loop width (some h.fresh) width.toNat 1
            (some { block := h.fresh + 2, idx := 0 })
            (init_heap width (List.replicate width.toNat zero_node) h)).1
          none
          (tst_init_loop width (some h.fresh) width.toNat 1
            (some { block := h.fresh + 2, idx := 0 })
            (init_heap width (List.replicate width.toNat zero_node) h)).2) := by
  unfold tst_init
  rw [calloc_granted _ _ _ (by decide) g0]
  simp only [reduceCtorEq, if_false]
  rw [calloc_granted _ _ _ (by decide) g1]
  simp only [st_tst, Heap.get, lookup_cons_eq, Heap.set, set_cell, ld_node_lines, st_lines,
    lookup_cons_ne (Nat.succ_ne_self h.fresh).symm, if_true, if_false,
    Nat.succ_ne_self, reduceCtorEq]
  rw [calloc_granted _ _ _ g2.1 g2.2]
  have n1 : h.fresh ≠ h.fresh + 1 + 1 := by omega
  have n2 : h.fresh + 1 ≠ h.fresh + 1 + 1 := by omega
  simp only [st_tst, Heap.get, lookup_cons_eq, Heap.set, set_cell, ld_node_lines, ld_node_line,
    st_lines, lookup_cons_ne (Nat.succ_ne_self h.fresh).symm, lookup_cons_ne n1,
    lookup_cons_ne n2, if_true, if_false, Nat.succ_ne_self, reduceCtorEq, n1.symm, n2.symm,
    Option.map, zero_tst, zero_lines, init_heap, pool_heap]

theorem grants_zero (h : Heap) : h.grants 0 ↔ h.oracle.headD true = true := by
  unfold Heap.grants
  rcases h.oracle with _ | ⟨a, r⟩ <;> simp

theorem grants_one (h : Heap) : h.grants 1 ↔ h.oracle.tail.headD true = true := by
  unfold Heap.grants
  rcases h.oracle with _ | ⟨a, _ | ⟨b, r⟩⟩ <;> simp

theorem grants_two (h : Heap) : h.grants 2 ↔ h.oracle.tail.tail.headD true = true := by
  unfold Heap.grants
  rcases h.oracle with _ | ⟨a, _ | ⟨b, _ | ⟨c, r⟩⟩⟩ <;> simp

theorem tst_init_ok (w : Nat) (hw : 1 ≤ w) (h : Heap)
    (g0 : h.grants 0) (g1 : h.grants 1) (g2 : h.grants 2) :
    tst_init (w : Int) h = (some h.fresh, init_heap w (linked (h.fresh + 2) w w) h) := by
  rw [grants_zero] at g0
  rw [grants_one] at g1
  rw [grants_two] at g2
  rw [tst_init_pass _ _ g0 g1 ⟨Int.natCast_nonneg w, g2⟩]
  obtain ⟨k, rfl⟩ : ∃ k, w = k + 1 := ⟨w - 1, by omega⟩
  have hl := loop_spec (k + 1) h.fresh (h.fresh + 1) (h.fresh + 2)
    { node_line_width := ((k + 1 : Nat) : Int), node_lines := some (h.fresh + 1),
      free_list := some { block := h.fresh + 2, idx := 0 } } rfl (by omega) (by omega) (by omega)
    { h with fresh := h.fresh + 3, oracle := h.oracle.tail.tail.tail,
             trace := Event.calloc (some (h.fresh + 2)) :: Event.calloc (some (h.fresh + 1))
               :: Event.calloc (some h.fresh) :: h.trace } (k + 1) 0 (by omega) (by omega)
  rw [linked_zero] at hl
  have hlast : (linked (h.fresh + 2) (k + 1) (k + 1)).get? k = some
      { zero_node with middle := none } := by
    rw [linked_get? _ _ _ _ (by omega)]; simp
  have hset : (linked (h.fresh + 2) (k + 1) (k + 1)).set k
      { value := zero_node.value, left := zero_node.left, middle := none, right := zero_node.right }
      = linked (h.fresh + 2) (k + 1) (k + 1) := by
    apply List.ext_get?
    intro x
    by_cases hx : x = k
    · subst hx
      simp only [List.get?_eq_getElem?] at hlast
      simp [List.getElem?_set, linked_length, hlast]
    · simp [List.getElem?_set, Ne.symm hx]
  simp only [Int.toNat_ofNat, init_heap, Nat.zero_add]
  rw [hl]
  simp only [st_middle, pool_heap, Heap.get, lookup_cons_eq, Nat.add_sub_cancel, hlast, Heap.set,
    set_cell, if_true, hset]

theorem tst_init_zero (h : Heap) (g0 : h.grants 0) (g1 : h.grants 1) (g2 : h.grants 2) :
    tst_init 0 h = (some h.fresh, (init_heap 0 [] h).fault) := by
  rw [grants_zero] at g0
  rw [grants_one] at g1
  rw [grants_two] at g2
  rw [tst_init_pass _ _ g0 g1 ⟨le_refl 0, g2⟩]
  simp [tst_init_loop, st_middle, init_heap, pool_heap, Heap.get, lookup_cons_eq]

theorem init_heap_get_tst (width : Int) (ns : List node) (h : Heap) :
    (init_heap width ns h).get h.fresh = some (Obj.tstO
      { node_line_width := width, node_lines := some (h.fresh + 1),
        free_list := some { block := h.fresh + 2, idx := 0 } }) := by
  have n1 : h.fresh ≠ h.fresh + 2 := by omega
  have n2 : h.fresh ≠ h.fresh + 1 := by omega
  simp only [init_heap, pool_heap, Heap.get, lookup_cons_eq, lookup_cons_ne n1, lookup_cons_ne n2]

theorem init_heap_get_lines (width : Int) (ns : List node) (h : Heap) :
    (init_heap width ns h).get (h.fresh + 1) = some (Obj.linesO
      { node_line := some { block := h.fresh + 2, idx := 0 }, next := none }) := by
  have n1 : h.fresh + 1 ≠ h.fresh + 2 := by omega
  simp only [init_heap, pool_heap, Heap.get, lookup_cons_eq, lookup_cons_ne n1]

theorem init_heap_get_nodes (width : Int) (ns : List node) (h : Heap) :
    (init_heap width ns h).get (h.fresh + 2) = some (Obj.nodesO ns) := by
  simp only [init_heap, pool_heap, Heap.get, lookup_cons_eq]

/-- C1: for every width >= 1, when the three allocations are granted, `tst_init(width)` returns a
pool handle `t` whose block record `l` points to a block `b` of exactly `width` nodes, the free list
starts at node 0 of the block, the `middle` link of node `i` is node `i + 1` for every
`i < width - 1`, and the `middle` link of node `width - 1` is NULL. -/
theorem tst_init_free_list_in_array_order (width : Int) (h : Heap) (hw : 1 ≤ width)
    (g0 : h.grants 0) (g1 : h.grants 1) (g2 : h.grants 2) :
    ∃ t l b s ns,
      (tst_init width h).1 = some t ∧
      (tst_init width h).2.get t = some (Obj.tstO s) ∧
      s.node_lines = some l ∧
      (tst_init width h).2.get l = some (Obj.linesO
        { node_line := some { block := b, idx := 0 }, next := none }) ∧
      (tst_init width h).2.get b = some (Obj.nodesO ns) ∧
      (ns.length : Int) = width ∧
      s.free_list = some { block := b, idx := 0 } ∧
      (∀ i : Nat, (i : Int) < width - 1 →
        (ns.get? i).map node.middle = some (some { block := b, idx := i + 1 })) ∧
      (ns.get? (width - 1).toNat).map node.middle = some none := by
  obtain ⟨w, rfl⟩ : ∃ w : Nat, width = (w : Int) := ⟨width.toNat, by omega⟩
  have hw1 : 1 ≤ w := by exact_mod_cast hw
  rw [tst_init_ok w hw1 h g0 g1 g2]
  refine ⟨h.fresh, h.fresh + 1, h.fresh + 2, _, linked (h.fresh + 2) w w, rfl,
    init_heap_get_tst _ _ _, rfl, init_heap_get_lines _ _ _, init_heap_get_nodes _ _ _,
    by simp [linked_length], rfl, ?_, ?_⟩
  · intro i hi
    have hi1 : i + 1 < w := by omega
    rw [linked_get? _ _ _ _ (by omega)]
    simp [hi1]
  · have e : ((w : Int) - 1).toNat = w - 1 := by omega
    rw [e, linked_get? _ _ _ _ (by omega)]
    have : ¬ (w - 1 + 1 < w) := by omega
    simp [this]

/-- Witness of C1: width 3 on the empty heap. -/
theorem tst_init_free_list_in_array_order_witness :
    ∃ t l b s ns,
      (tst_init 3 heap0).1 = some t ∧
      (tst_init 3 heap0).2.get t = some (Obj.tstO s) ∧
      s.node_lines = some l ∧
      (tst_init 3 heap0).2.get l = some (Obj.linesO
        { node_line := some { block := b, idx := 0 }, next := none }) ∧
      (tst_init 3 heap0).2.get b = some (Obj.nodesO ns) ∧
      (ns.length : Int) = 3 ∧
      s.free_list = some { block := b, idx := 0 } ∧
      (∀ i : Nat, (i : Int) < 3 - 1 →
        (ns.get? i).map node.middle = some (some { block := b, idx := i + 1 })) ∧
      (ns.get? ((3 : Int) - 1).toNat).map node.middle = some none :=
  tst_init_free_list_in_array_order 3 heap0 (by decide) (by decide) (by decide) (by decide)

theorem pop_spec (w : Nat) (t l b : Nat) (T : tst) (hbt : b ≠ t) (hlt : l ≠ t) (h : Heap) :
    ∀ n k, k + n = w →
      pop_many (some t) n
          (pool_heap t l b
            { T with free_list := if k < w then some { block := b, idx := k } else none }
            (linked b w w) h)
        = some ((List.range' k n).map (fun i => { block := b, idx := i }),
            pool_heap t l b { T with free_list := none } (linked b w w) h) := by
  intro n
  induction n with
  | zero =>
    intro k hk
    have : ¬ k < w := by omega
    simp [pop_many, this]
  | succ n ih =>
    intro k hk
    have hkw : k < w := by omega
    have hg := linked_get? b w w k hkw
    have e1 : ld_middle (some { block := b, idx := k })
        (pool_heap t l b { T with free_list := some { block := b, idx := k } } (linked b w w) h)
        = if k + 1 < w then some { block := b, idx := k + 1 } else none := by
      simp only [ld_middle, pool_heap, Heap.get, lookup_cons_eq, hg]
      simp
    have e2 : pop_free (some t)
        (pool_heap t l b { T with free_list := some { block := b, idx := k } } (linked b w w) h)
        = (some { block := b, idx := k },
            pool_heap t l b
              { T with free_list := if k + 1 < w then some { block := b, idx := k + 1 } else none }
              (linked b w w) h) := by
      have hget : (pool_heap t l b { T with free_list := some { block := b, idx := k } }
          (linked b w w) h).get t
          = some (Obj.tstO { T with free_list := some { block := b, idx := k } }) := by
        simp only [pool_heap, Heap.get, lookup_cons_eq, lookup_cons_ne (Ne.symm hbt),
          lookup_cons_ne (Ne.symm hlt)]
      simp only [pop_free, hget, st_tst]
      rw [e1]
      simp only [pool_heap, Heap.set, set_cell, hbt, hlt, if_false, if_true]
    unfold pop_many
    rw [if_pos hkw, e2]
    simp only
    rw [ih (k + 1) (by omega)]
    simp [List.range'_succ]

theorem pop_many_succ_none (t : Nat) :
    ∀ (n : Nat) (hp : Heap) (r : List NodePtr × Heap),
      pop_many (some t) n hp = some r → (pop_free (some t) r.2).1 = none →
      pop_many (some t) (n + 1) hp = none := by
  intro n
  induction n with
  | zero =>
    intro hp r hr hnone
    simp only [pop_many, Option.some.injEq] at hr
    subst hr
    unfold pop_many
    revert hnone
    rcases pop_free (some t) hp with ⟨_ | q, h2⟩ <;> simp
  | succ n ih =>
    intro hp r hr hnone
    rw [pop_many] at hr
    rw [pop_many]
    rcases hpf : pop_free (some t) hp with ⟨_ | q, h2⟩
    · simp
    · rw [hpf] at hr
      simp only at hr
      rcases hpm : pop_many (some t) n h2 with _ | r2
      · rw [hpm] at hr; simp at hr
      · rw [hpm] at hr
        simp only [Option.map_some', Option.some.injEq] at hr
        subst hr
        simp only
        rw [ih h2 r2 hpm hnone]
        rfl

/-- C2: for every width W >= 1, after a successful `tst_init(W)` popping the head of the free list
succeeds W times and yields the nodes 0, 1, ..., W-1 of the single block `b` of W nodes, which are
pairwise distinct and are exactly the nodes of that block; the free list is then empty, so a
further pop finds no node and W + 1 pops do not all succeed. -/
theorem tst_init_pop_width_nodes (W : Nat) (h : Heap) (hW : 1 ≤ W)
    (g0 : h.grants 0) (g1 : h.grants 1) (g2 : h.grants 2) :
    ∃ t l b nodes h1,
      (tst_init (W : Int) h).1 = some t ∧
      ld_node_lines (some t) (tst_init (W : Int) h).2 = some l ∧
      ld_node_line (some l) (tst_init (W : Int) h).2 = some { block := b, idx := 0 } ∧
      block_size (tst_init (W : Int) h).2 l = W ∧
      pop_many (some t) W (tst_init (W : Int) h).2 = some (nodes, h1) ∧
      nodes = (List.range W).map (fun i => { block := b, idx := i }) ∧
      nodes.length = W ∧
      nodes.Nodup ∧
      (∀ q : NodePtr, q ∈ nodes ↔ (q.block = b ∧ q.idx < W)) ∧
      ld_free_list (some t) h1 = none ∧
      (pop_free (some t) h1).1 = none ∧
      pop_many (some t) (W + 1) (tst_init (W : Int) h).2 = none := by
  rw [tst_init_ok W hW h g0 g1 g2]
  have hp := pop_spec W h.fresh (h.fresh + 1) (h.fresh + 2)
    { node_line_width := (W : Int), node_lines := some (h.fresh + 1),
      free_list := some { block := h.fresh + 2, idx := 0 } } (by omega) (by omega)
    { h with fresh := h.fresh + 3, oracle := h.oracle.tail.tail.tail,
             trace := Event.calloc (some (h.fresh + 2)) :: Event.calloc (some (h.fresh + 1))
               :: Event.calloc (some h.fresh) :: h.trace }
  have hp0 := hp W 0 (by omega)
  have hW0 : 0 < W := by omega
  simp only [hW0, if_true] at hp0
  have n1 : h.fresh ≠ h.fresh + 2 := by omega
  have n2 : h.fresh ≠ h.fresh + 1 := by omega
  have n3 : h.fresh + 1 ≠ h.fresh + 2 := by omega
  have hfl : ld_free_list (some h.fresh)
      (pool_heap h.fresh (h.fresh + 1) (h.fresh + 2)
        { node_line_width := (W : Int), node_lines := some (h.fresh + 1), free_list := none }
        (linked (h.fresh + 2) W W)
        { h with fresh := h.fresh + 3, oracle := h.oracle.tail.tail.tail,
                 trace := Event.calloc (some (h.fresh + 2)) :: Event.calloc (some (h.fresh + 1))
                   :: Event.calloc (some h.fresh) :: h.trace }) = none := by
    simp only [ld_free_list, pool_heap, Heap.get, lookup_cons_eq, lookup_cons_ne n1,
      lookup_cons_ne n2]
  refine ⟨h.fresh, h.fresh + 1, h.fresh + 2, _, _, rfl, ?_, ?_, ?_, hp0, ?_, ?_, ?_, ?_, hfl,
    ?_, ?_⟩
  · simp only [ld_node_lines, init_heap_get_tst]
  · simp only [ld_node_line, init_heap_get_lines]
  · simp only [block_size, ld_node_line, init_heap_get_lines, init_heap_get_nodes, linked_length]
    simp
  · rw [List.range_eq_range']
  · simp
  · refine (List.nodup_range' 0 W).map ?_
    intro i j hij
    simpa using hij
  · intro q
    constructor
    · intro hq
      simp only [List.mem_map, List.mem_range'_1] at hq
      obtain ⟨i, hi, rfl⟩ := hq
      exact ⟨rfl, by simp; omega⟩
    · rintro ⟨hb, hi⟩
      simp only [List.mem_map, List.mem_range'_1]
      exact ⟨q.idx, by omega, by cases q; simp_all⟩
  · unfold pop_free
    simp only [pool_heap, Heap.get, lookup_cons_eq, lookup_cons_ne n1, lookup_cons_ne n2]
  · show pop_many (some h.fresh) (W + 1) (init_heap _ _ h) = none
    refine pop_many_succ_none h.fresh W _ _ hp0 ?_
    unfold pop_free
    simp only [pool_heap, Heap.get, lookup_cons_eq, lookup_cons_ne n1, lookup_cons_ne n2]

/-- Witness of C2: width 3 on the empty heap. -/
theorem tst_init_pop_width_nodes_witness :
    ∃ t l b nodes h1,
      (tst_init ((3 : Nat) : Int) heap0).1 = some t ∧
      ld_node_lines (some t) (tst_init ((3 : Nat) : Int) heap0).2 = some l ∧
      ld_node_line (some l) (tst_init ((3 : Nat) : Int) heap0).2 = some { block := b, idx := 0 } ∧
      block_size (tst_init ((3 : Nat) : Int) heap0).2 l = 3 ∧
      pop_many (some t) 3 (tst_init ((3 : Nat) : Int) heap0).2 = some (nodes, h1) ∧
      nodes = (List.range 3).map (fun i => { block := b, idx := i }) ∧
      nodes.length = 3 ∧
      nodes.Nodup ∧
      (∀ q : NodePtr, q ∈ nodes ↔ (q.block = b ∧ q.idx < 3)) ∧
      ld_free_list (some t) h1 = none ∧
      (pop_free (some t) h1).1 = none ∧
      pop_many (some t) (3 + 1) (tst_init ((3 : Nat) : Int) heap0).2 = none :=
  tst_init_pop_width_nodes 3 heap0 (by decide) (by decide) (by decide) (by decide)

theorem events_since_cons1 (h : Heap) (e1 : Event) (tr : List Event) (htr : tr = e1 :: h.trace)
    (c : List (Nat × Obj)) (f : Nat) (o : List Bool) :
    events_since h { cells := c, fresh := f, oracle := o, trace := tr } = [e1] := by
  subst htr
  simp [events_since]

theorem events_since_eq (h h1 : Heap) (es : List Event) (htr : h1.trace = es ++ h.trace) :
    events_since h h1 = es := by
  simp [events_since, htr]

theorem tst_init_outcome (width : Int) (h : Heap) :
    ((¬ h.grants 0) ∧ tst_init width h = (none, fail1_heap h)) ∨
    (h.grants 0 ∧ (¬ h.grants 1) ∧ tst_init width h = (none, fail2_heap h)) ∨
    (h.grants 0 ∧ h.grants 1 ∧ (¬ (0 ≤ width ∧ h.grants 2)) ∧
      tst_init width h = (none, fail3_heap h)) ∨
    (h.grants 0 ∧ h.grants 1 ∧ h.grants 2 ∧ width = 0 ∧
      tst_init width h = (some h.fresh, (init_heap 0 [] h).fault)) ∨
    (h.grants 0 ∧ h.grants 1 ∧ h.grants 2 ∧ 1 ≤ width ∧
      tst_init width h
        = (some h.fresh, init_heap width (linked (h.fresh + 2) width.toNat width.toNat) h)) := by
  by_cases g0 : h.grants 0
  · by_cases g1 : h.grants 1
    · by_cases g2 : 0 ≤ width ∧ h.grants 2
      · by_cases hpos : 0 < width
        · right; right; right; right
          obtain ⟨w, rfl⟩ : ∃ w : Nat, width = (w : Int) := ⟨width.toNat, by omega⟩
          refine ⟨g0, g1, g2.2, by omega, ?_⟩
          rw [tst_init_ok w (by omega) h g0 g1 g2.2]
          simp
        · right; right; right; left
          have : width = 0 := by omega
          subst this
          exact ⟨g0, g1, g2.2, rfl, tst_init_zero h g0 g1 g2.2⟩
      · right; right; left
        refine ⟨g0, g1, g2, ?_⟩
        rw [grants_two] at g2
        exact tst_init_fail3 width h ((grants_zero h).1 g0) ((grants_one h).1 g1) g2
    · right; left
      refine ⟨g0, g1, ?_⟩
      rw [grants_one] at g1
      exact tst_init_fail2 width h ((grants_zero h).1 g0) g1
  · left
    refine ⟨g0, ?_⟩
    rw [grants_zero] at g0
    exact tst_init_fail1 width h g0

theorem events_fail1 (h : Heap) : events_since h (fail1_heap h) = [Event.calloc none] :=
  events_since_eq h _ _ (by simp [fail1_heap])

theorem events_fail2 (h : Heap) : events_since h (fail2_heap h)
    = [Event.free h.fresh, Event.calloc none, Event.calloc (some h.fresh)] :=
  events_since_eq h _ _ (by simp [fail2_heap])

theorem events_fail3 (h : Heap) : events_since h (fail3_heap h)
    = [Event.free h.fresh, Event.free (h.fresh + 1), Event.calloc none,
        Event.calloc (some (h.fresh + 1)), Event.calloc (some h.fresh)] :=
  events_since_eq h _ _ (by simp [fail3_heap])

theorem events_init (width : Int) (ns : List node) (h : Heap) :
    events_since h (init_heap width ns h)
      = [Event.calloc (some (h.fresh + 2)), Event.calloc (some (h.fresh + 1)),
          Event.calloc (some h.fresh)] :=
  events_since_eq h _ _ (by simp [init_heap, pool_heap])

theorem events_init_fault (width : Int) (ns : List node) (h : Heap) :
    events_since h (init_heap width ns h).fault
      = [Event.fault, Event.calloc (some (h.fresh + 2)), Event.calloc (some (h.fresh + 1)),
          Event.calloc (some h.fresh)] :=
  events_since_eq h _ _ (by simp [init_heap, pool_heap, Heap.fault])

/-- C3: `tst_init(width)` returns NULL if and only if one of the `calloc` calls it makes returns
NULL, which happens exactly when the allocator refuses the pool handle, the block record or the
node array (a negative width is always refused); when no call fails the result is the address of
a live pool handle. -/
theorem tst_init_null_iff_alloc_fails (width : Int) (h : Heap) :
    ((tst_init width h).1 = none ↔
      Event.calloc none ∈ events_since h (tst_init width h).2) ∧
    ((tst_init width h).1 = none ↔
      ¬ (h.grants 0 ∧ h.grants 1 ∧ 0 ≤ width ∧ h.grants 2)) ∧
    (Event.calloc none ∈ events_since h (tst_init width h).2 ∨
      ∃ t s, (tst_init width h).1 = some t ∧
        (tst_init width h).2.get t = some (Obj.tstO s)) := by
  rcases tst_init_outcome width h with ⟨g0, e⟩ | ⟨g0, g1, e⟩ | ⟨g0, g1, g2, e⟩ |
      ⟨g0, g1, g2, hw, e⟩ | ⟨g0, g1, g2, hw, e⟩
  · rw [e]; simp [events_fail1, g0]
  · rw [e]; simp [events_fail2, g0, g1]
  · rw [e]; simp only [events_fail3]
    refine ⟨by simp, ?_, by simp⟩
    simp only [true_iff]
    intro hh
    exact g2 ⟨hh.2.2.1, hh.2.2.2⟩
  · rw [e]; subst hw
    simp only [events_init_fault]
    refine ⟨by simp, by simp [g0, g1, g2], Or.inr ⟨h.fresh,
      { node_line_width := 0, node_lines := some (h.fresh + 1),
        free_list := some { block := h.fresh + 2, idx := 0 } }, rfl, ?_⟩⟩
    show (init_heap 0 [] h).get h.fresh = _
    exact init_heap_get_tst _ _ _
  · rw [e]
    simp only [events_init]
    have h0 : 0 ≤ width := by omega
    refine ⟨by simp, by simp [g0, g1, g2, h0], Or.inr ⟨h.fresh, _, rfl, init_heap_get_tst _ _ _⟩⟩

/-- C4: when `tst_init` returns NULL, the addresses it passed to `free` during the call are
exactly the addresses `calloc` gave it during the call, each freed once, and the live allocations
are those of the heap before the call; when it returns a pool it has freed nothing. -/
theorem tst_init_rollback (width : Int) (h : Heap) :
    match (tst_init width h).1 with
    | none =>
      List.Perm (freed (events_since h (tst_init width h).2))
        (allocated (events_since h (tst_init width h).2)) ∧
      (freed (events_since h (tst_init width h).2)).Nodup ∧
      (tst_init width h).2.cells = h.cells
    | some _ => freed (events_since h (tst_init width h).2) = [] := by
  rcases tst_init_outcome width h with ⟨g0, e⟩ | ⟨g0, g1, e⟩ | ⟨g0, g1, g2, e⟩ |
      ⟨g0, g1, g2, hw, e⟩ | ⟨g0, g1, g2, hw, e⟩
  · rw [e]; simp only [events_fail1]; simp [freed, allocated, fail1_heap]
  · rw [e]; simp only [events_fail2]; simp [freed, allocated, fail2_heap]
  · rw [e]; simp only [events_fail3, freed, allocated]
    exact ⟨List.Perm.swap _ _ _, by simp, rfl⟩
  · rw [e]; simp only [events_init_fault]; simp [freed]
  · rw [e]; simp only [events_init]; simp [freed]

/-- C5: for every width >= 1, after a successful `tst_init(width)` the pool handle records
`node_line_width = width`, its block list is the single record `l` (non-NULL, with `next` NULL),
that block holds exactly `width` nodes, and the capacity of the pool, the sum of the block sizes,
is `width` times the number of blocks, that is `width`. -/
theorem tst_init_single_block (width : Int) (h : Heap) (hw : 1 ≤ width)
    (g0 : h.grants 0) (g1 : h.grants 1) (g2 : h.grants 2) :
    ∃ t l b s ns,
      (tst_init width h).1 = some t ∧
      (tst_init width h).2.get t = some (Obj.tstO s) ∧
      s.node_line_width = width ∧
      s.node_lines = some l ∧
      (tst_init width h).2.get l = some (Obj.linesO
        { node_line := some { block := b, idx := 0 }, next := none }) ∧
      (tst_init width h).2.get b = some (Obj.nodesO ns) ∧
      (ns.length : Int) = width ∧
      (∀ fuel, block_list (tst_init width h).2 (fuel + 1) s.node_lines = [l]) ∧
      (block_size (tst_init width h).2 l : Int) = width ∧
      ((((block_list (tst_init width h).2 2 s.node_lines).map
          (block_size (tst_init width h).2)).sum : Nat) : Int)
        = width * ((block_list (tst_init width h).2 2 s.node_lines).length : Int) ∧
      width * ((block_list (tst_init width h).2 2 s.node_lines).length : Int) = width := by
  obtain ⟨w, rfl⟩ : ∃ w : Nat, width = (w : Int) := ⟨width.toNat, by omega⟩
  have hw1 : 1 ≤ w := by exact_mod_cast hw
  rw [tst_init_ok w hw1 h g0 g1 g2]
  have hbl : ∀ fuel, block_list (init_heap (w : Int) (linked (h.fresh + 2) w w) h) (fuel + 1)
      (some (h.fresh + 1)) = [h.fresh + 1] := by
    intro fuel
    cases fuel <;> simp [block_list, init_heap_get_lines]
  have hbs : block_size (init_heap (w : Int) (linked (h.fresh + 2) w w) h) (h.fresh + 1) = w := by
    simp only [block_size, ld_node_line, init_heap_get_lines, init_heap_get_nodes, linked_length]
    simp
  refine ⟨h.fresh, h.fresh + 1, h.fresh + 2, _, linked (h.fresh + 2) w w, rfl,
    init_heap_get_tst _ _ _, rfl, rfl, init_heap_get_lines _ _ _, init_heap_get_nodes _ _ _,
    by simp [linked_length], hbl, by simp [hbs], ?_, ?_⟩
  · rw [hbl 1]; simp [hbs]
  · rw [hbl 1]; simp

/-- Witness of C5: width 3 on the empty heap. -/
theorem tst_init_single_block_witness :
    ∃ t l b s ns,
      (tst_init 3 heap0).1 = some t ∧
      (tst_init 3 heap0).2.get t = some (Obj.tstO s) ∧
      s.node_line_width = 3 ∧
      s.node_lines = some l ∧
      (tst_init 3 heap0).2.get l = some (Obj.linesO
        { node_line := some { block := b, idx := 0 }, next := none }) ∧
      (tst_init 3 heap0).2.get b = some (Obj.nodesO ns) ∧
      (ns.length : Int) = 3 ∧
      (∀ fuel, block_list (tst_init 3 heap0).2 (fuel + 1) s.node_lines = [l]) ∧
      (block_size (tst_init 3 heap0).2 l : Int) = 3 ∧
      ((((block_list (tst_init 3 heap0).2 2 s.node_lines).map
          (block_size (tst_init 3 heap0).2)).sum : Nat) : Int)
        = 3 * ((block_list (tst_init 3 heap0).2 2 s.node_lines).length : Int) ∧
      3 * ((block_list (tst_init 3 heap0).2 2 s.node_lines).length : Int) = 3 :=
  tst_init_single_block 3 heap0 (by decide) (by decide) (by decide) (by decide)

theorem loop_log_spec (w : Nat) (t l b : Nat) (T : tst) (hT : T.node_lines = some l)
    (hbl : b ≠ l) (hbt : b ≠ t) (hlt : l ≠ t) (h : Heap) :
    ∀ fuel k, k + 1 ≤ w → w ≤ fuel + (k + 1) →
      (∀ a ∈ tst_init_loop_log (w : Int) (some t) fuel (k + 1) (some { block := b, idx := k })
          (pool_heap t l b T (linked b w (k + 1)) h),
        (∃ i, a = Access.index i ∧ 1 ≤ i ∧ i < w) ∨
        (∃ j, a = Access.store (some { block := b, idx := j }) ∧ j + 1 < w)) ∧
      (tst_init_loop_log (w : Int) (some t) fuel (k + 1) (some { block := b, idx := k })
          (pool_heap t l b T (linked b w (k + 1)) h)).length = 2 * (w - (k + 1)) := by
  intro fuel
  induction fuel with
  | zero =>
    intro k h1 h2
    have : w = k + 1 := by omega
    subst this
    simp [tst_init_loop_log]
  | succ fuel ih =>
    intro k h1 h2
    unfold tst_init_loop_log
    by_cases hlt2 : ((k + 1 : Nat) : Int) < (w : Int)
    · have hkw : k + 1 < w := by exact_mod_cast hlt2
      have hk : k < w := by omega
      rw [if_pos hlt2]
      have hg := linked_get? b w (k + 1) k hk
      have hg2 := linked_get? b w (k + 2) k hk
      have hstep := linked_step b w k hkw _ hg
      have e1 : ld_node_lines (some t) (pool_heap t l b T (linked b w (k + 1)) h) = some l := by
        simp [ld_node_lines, pool_heap, Heap.get, lookup_cons_eq, lookup_cons_ne (Ne.symm hbt),
          lookup_cons_ne (Ne.symm hlt), hT]
      have e2 : ld_node_line (some l) (pool_heap t l b T (linked b w (k + 1)) h)
          = some { block := b, idx := 0 } := by
        simp [ld_node_line, pool_heap, Heap.get, lookup_cons_eq, lookup_cons_ne (Ne.symm hbl)]
      have e3 : st_middle (some { block := b, idx := k }) (some { block := b, idx := k + 1 })
          (pool_heap t l b T (linked b w (k + 1)) h) = pool_heap t l b T (linked b w (k + 2)) h := by
        simp only [st_middle, pool_heap, Heap.get, lookup_cons_eq, hg, Heap.set, set_cell]
        simp [hstep]
      have e4 : ld_middle (some { block := b, idx := k }) (pool_heap t l b T (linked b w (k + 2)) h)
          = some { block := b, idx := k + 1 } := by
        simp only [ld_middle, pool_heap, Heap.get, lookup_cons_eq, hg2]
        simp
      simp only [e1, e2, node_at, Option.map, Nat.zero_add, e3, e4]
      obtain ⟨ih1, ih2⟩ := ih (k + 1) hkw (by omega)
      constructor
      · intro a ha
        rcases List.mem_cons.1 ha with rfl | ha
        · exact Or.inl ⟨k + 1, rfl, by omega, hkw⟩
        · rcases List.mem_cons.1 ha with rfl | ha
          · exact Or.inr ⟨k, rfl, hkw⟩
          · exact ih1 a ha
      · simp only [List.length_cons, ih2]
        omega
    · have : w = k + 1 := by
        have : ¬ (k + 1 < w) := by intro hh; exact hlt2 (by exact_mod_cast hh)
        omega
      subst this
      rw [if_neg hlt2]
      simp

theorem tst_init_log_pass (width : Int) (h : Heap) (g0 : h.oracle.headD true = true)
    (g1 : h.oracle.tail.headD true = true)
    (g2 : 0 ≤ width ∧ h.oracle.tail.tail.headD true = true) :
    tst_init_log width h =
      tst_init_loop_log width (some h.fresh) width.toNat 1
          (some { block := h.fresh + 2, idx := 0 })
          (init_heap width (List.replicate width.toNat zero_node) h)
        ++ [Access.store (tst_init_loop width (some h.fresh) width.toNat 1
            (some { block := h.fresh + 2, idx := 0 })
            (init_heap width (List.replicate width.toNat zero_node) h)).1] := by
  unfold tst_init_log
  rw [calloc_granted _ _ _ (by decide) g0]
  simp only [reduceCtorEq, if_false]
  rw [calloc_granted _ _ _ (by decide) g1]
  simp only [st_tst, Heap.get, lookup_cons_eq, Heap.set, set_cell, ld_node_lines, st_lines,
    lookup_cons_ne (Nat.succ_ne_self h.fresh).symm, if_true, if_false,
    Nat.succ_ne_self, reduceCtorEq]
  rw [calloc_granted _ _ _ g2.1 g2.2]
  have n1 : h.fresh ≠ h.fresh + 1 + 1 := by omega
  have n2 : h.fresh + 1 ≠ h.fresh + 1 + 1 := by omega
  simp only [st_tst, Heap.get, lookup_cons_eq, Heap.set, set_cell, ld_node_lines, ld_node_line,
    st_lines, lookup_cons_ne (Nat.succ_ne_self h.fresh).symm, lookup_cons_ne n1,
    lookup_cons_ne n2, if_true, if_false, Nat.succ_ne_self, reduceCtorEq, n1.symm, n2.symm,
    Option.map, zero_tst, zero_lines, init_heap, pool_heap]

theorem tst_init_log_ok (w : Nat) (hw : 1 ≤ w) (h : Heap)
    (g0 : h.grants 0) (g1 : h.grants 1) (g2 : h.grants 2) :
    (∀ a ∈ tst_init_log (w : Int) h,
      (∃ i, a = Access.index i ∧ 1 ≤ i ∧ i < w) ∨
      (∃ j, a = Access.store (some { block := h.fresh + 2, idx := j }) ∧ j < w)) ∧
    (tst_init_log (w : Int) h).length = 2 * (w - 1) + 1 := by
  rw [grants_zero] at g0
  rw [grants_one] at g1
  rw [grants_two] at g2
  rw [tst_init_log_pass _ _ g0 g1 ⟨Int.natCast_nonneg w, g2⟩]
  obtain ⟨k, rfl⟩ : ∃ k, w = k + 1 := ⟨w - 1, by omega⟩
  have hl := loop_spec (k + 1) h.fresh (h.fresh + 1) (h.fresh + 2)
    { node_line_width := ((k + 1 : Nat) : Int), node_lines := some (h.fresh + 1),
      free_list := some { block := h.fresh + 2, idx := 0 } } rfl (by omega) (by omega) (by omega)
    { h with fresh := h.fresh + 3, oracle := h.oracle.tail.tail.tail,
             trace := Event.calloc (some (h.fresh + 2)) :: Event.calloc (some (h.fresh + 1))
               :: Event.calloc (some h.fresh) :: h.trace } (k + 1) 0 (by omega) (by omega)
  have hg := loop_log_spec (k + 1) h.fresh (h.fresh + 1) (h.fresh + 2)
    { node_line_width := ((k + 1 : Nat) : Int), node_lines := some (h.fresh + 1),
      free_list := some { block := h.fresh + 2, idx := 0 } } rfl (by omega) (by omega) (by omega)
    { h with fresh := h.fresh + 3, oracle := h.oracle.tail.tail.tail,
             trace := Event.calloc (some (h.fresh + 2)) :: Event.calloc (some (h.fresh + 1))
               :: Event.calloc (some h.fresh) :: h.trace } (k + 1) 0 (by omega) (by omega)
  rw [linked_zero] at hl hg
  simp only [Int.toNat_ofNat, init_heap, Nat.zero_add] at hl hg ⊢
  rw [hl]
  obtain ⟨hg1, hg2⟩ := hg
  constructor
  · intro a ha
    rcases List.mem_append.1 ha with ha | ha
    · rcases hg1 a ha with ⟨i, rfl, h1, h2⟩ | ⟨j, rfl, h1⟩
      · exact Or.inl ⟨i, rfl, h1, h2⟩
      · exact Or.inr ⟨j, rfl, by omega⟩
    · simp only [List.mem_singleton] at ha
      subst ha
      exact Or.inr ⟨k, by simp, by omega⟩
  · rw [List.length_append, hg2]
    simp

/-- C15, the code at the failing input: `tst_init(0)` on the empty heap, every allocation
granted. The block has no node, but the free list is not NULL: it points to node 0 of the empty
block, a pop returns that pointer, and the one store of the run, `current_node->middle = NULL`,
goes through it and is a fault. -/
theorem tst_init_zero_width_dangling :
    (tst_init 0 heap0).1 = some 0 ∧
    (tst_init 0 heap0).2.get 2 = some (Obj.nodesO []) ∧
    ld_node_line (ld_node_lines (some 0) (tst_init 0 heap0).2) (tst_init 0 heap0).2
      = some { block := 2, idx := 0 } ∧
    ld_free_list (some 0) (tst_init 0 heap0).2 = some { block := 2, idx := 0 } ∧
    (pop_free (some 0) (tst_init 0 heap0).2).1 = some { block := 2, idx := 0 } ∧
    tst_init_log 0 heap0 = [Access.store (some { block := 2, idx := 0 })] ∧
    events_since heap0 (tst_init 0 heap0).2
      = [Event.fault, Event.calloc (some 2), Event.calloc (some 1), Event.calloc (some 0)] := by
  decide

/-- C16: for every width >= 1, when the three allocations are granted, every index `i` used in
`node_line[i]` by `tst_init` satisfies `0 <= i < width`, every store to a `middle` field goes
through a pointer to a node `k < width` of the block `b` allocated by the third `calloc` of the
call, the run makes `2 (width - 1) + 1` such accesses, and no store is a fault. -/
theorem tst_init_accesses_in_bounds (width : Int) (h : Heap) (hw : 1 ≤ width)
    (g0 : h.grants 0) (g1 : h.grants 1) (g2 : h.grants 2) :
    ∃ b,
      ld_node_line (ld_node_lines (tst_init width h).1 (tst_init width h).2) (tst_init width h).2
        = some { block := b, idx := 0 } ∧
      (events_since h (tst_init width h).2).head? = some (Event.calloc (some b)) ∧
      (∀ i, Access.index i ∈ tst_init_log width h → 0 ≤ (i : Int) ∧ (i : Int) < width) ∧
      (∀ p, Access.store p ∈ tst_init_log width h →
        ∃ k, p = some { block := b, idx := k } ∧ (k : Int) < width) ∧
      ((tst_init_log width h).length : Int) = 2 * (width - 1) + 1 ∧
      Event.fault ∉ events_since h (tst_init width h).2 := by
  obtain ⟨w, rfl⟩ : ∃ w : Nat, width = (w : Int) := ⟨width.toNat, by omega⟩
  have hw1 : 1 ≤ w := by exact_mod_cast hw
  obtain ⟨hmem, hlen⟩ := tst_init_log_ok w hw1 h g0 g1 g2
  rw [tst_init_ok w hw1 h g0 g1 g2]
  refine ⟨h.fresh + 2, ?_, ?_, ?_, ?_, ?_, ?_⟩
  · simp only [ld_node_lines, ld_node_line, init_heap_get_tst, init_heap_get_lines]
  · simp only [events_init, List.head?_cons]
  · intro i hi
    rcases hmem _ hi with ⟨i2, he, h1, h2⟩ | ⟨j, he, _⟩
    · simp only [Access.index.injEq] at he
      subst he
      exact ⟨by omega, by exact_mod_cast h2⟩
    · simp at he
  · intro p hp
    rcases hmem _ hp with ⟨i2, he, _, _⟩ | ⟨j, he, h1⟩
    · simp at he
    · simp only [Access.store.injEq] at he
      exact ⟨j, he, by exact_mod_cast h1⟩
  · rw [hlen]
    omega
  · simp only [events_init]
    simp

/-- Witness of C16: width 3 on the empty heap. -/
theorem tst_init_accesses_in_bounds_witness :
    ∃ b,
      ld_node_line (ld_node_lines (tst_init 3 heap0).1 (tst_init 3 heap0).2) (tst_init 3 heap0).2
        = some { block := b, idx := 0 } ∧
      (events_since heap0 (tst_init 3 heap0).2).head? = some (Event.calloc (some b)) ∧
      (∀ i, Access.index i ∈ tst_init_log 3 heap0 → 0 ≤ (i : Int) ∧ (i : Int) < 3) ∧
      (∀ p, Access.store p ∈ tst_init_log 3 heap0 →
        ∃ k, p = some { block := b, idx := k } ∧ (k : Int) < 3) ∧
      ((tst_init_log 3 heap0).length : Int) = 2 * (3 - 1) + 1 ∧
      Event.fault ∉ events_since heap0 (tst_init 3 heap0).2 :=
  tst_init_accesses_in_bounds 3 heap0 (by decide) (by decide) (by decide) (by decide)

theorem free_chain_linked (w : Nat) (t l b : Nat) (T : tst) (h : Heap) :
    ∀ n k, k + n = w →
      free_chain (pool_heap t l b T (linked b w w) h) (n + 1)
          (if k < w then some { block := b, idx := k } else none)
        = (List.range' k n).map (fun i => { block := b, idx := i }) := by
  intro n
  induction n with
  | zero =>
    intro k hk
    have : ¬ k < w := by omega
    simp [free_chain, this]
  | succ n ih =>
    intro k hk
    have hkw : k < w := by omega
    have hg := linked_get? b w w k hkw
    have e1 : ld_middle (some { block := b, idx := k }) (pool_heap t l b T (linked b w w) h)
        = if k + 1 < w then some { block := b, idx := k + 1 } else none := by
      simp only [ld_middle, pool_heap, Heap.get, lookup_cons_eq, hg]
      simp
    rw [if_pos hkw, free_chain, e1, ih (k + 1) (by omega)]
    simp [List.range'_succ]

theorem reach_none (h : Heap) (fuel : Nat) : reach h fuel none = [] := by
  cases fuel <;> rfl

/-- C17: for every width >= 1, after a successful `tst_init(width)` every node of the block has
stored character 0 and NULL `left` and `right` links, the cells of the heap that were live before
the call are unchanged, every root of the trie is NULL so that no node is live, and the free list
holds every node of the block, in array order. -/
theorem tst_init_writes_only_middle (width : Int) (h : Heap) (hw : 1 ≤ width)
    (g0 : h.grants 0) (g1 : h.grants 1) (g2 : h.grants 2) :
    ∃ t l b s ns,
      (tst_init width h).1 = some t ∧
      (tst_init width h).2.get t = some (Obj.tstO s) ∧
      s.node_lines = some l ∧
      (tst_init width h).2.get l = some (Obj.linesO
        { node_line := some { block := b, idx := 0 }, next := none }) ∧
      (tst_init width h).2.get b = some (Obj.nodesO ns) ∧
      (ns.length : Int) = width ∧
      (∀ n ∈ ns, n.value = 0 ∧ n.left = none ∧ n.right = none) ∧
      (tst_init width h).2.cells.drop 3 = h.cells ∧
      (∀ r ∈ s.head, r = none) ∧
      (∀ fuel, live_nodes (tst_init width h).2 s fuel = []) ∧
      free_chain (tst_init width h).2 (ns.length + 1) s.free_list
        = (List.range ns.length).map (fun i => { block := b, idx := i }) := by
  obtain ⟨w, rfl⟩ : ∃ w : Nat, width = (w : Int) := ⟨width.toNat, by omega⟩
  have hw1 : 1 ≤ w := by exact_mod_cast hw
  rw [tst_init_ok w hw1 h g0 g1 g2]
  have hroots : ∀ r ∈ (List.replicate 127 (none : Option NodePtr)), r = none := by
    intro r hr
    exact (List.mem_replicate.1 hr).2
  refine ⟨h.fresh, h.fresh + 1, h.fresh + 2, _, linked (h.fresh + 2) w w, rfl,
    init_heap_get_tst _ _ _, rfl, init_heap_get_lines _ _ _, init_heap_get_nodes _ _ _,
    by simp [linked_length], ?_, ?_, hroots, ?_, ?_⟩
  · intro n hn
    simp only [linked, List.mem_map] at hn
    obtain ⟨x, _, rfl⟩ := hn
    exact ⟨rfl, rfl, rfl⟩
  · simp [init_heap, pool_heap]
  · intro fuel
    simp only [live_nodes]
    rw [List.flatMap_eq_nil_iff]
    intro r hr
    rw [hroots r hr, reach_none]
  · have hc := free_chain_linked w h.fresh (h.fresh + 1) (h.fresh + 2)
      { node_line_width := (w : Int), node_lines := some (h.fresh + 1),
        free_list := some { block := h.fresh + 2, idx := 0 } }
      { h with fresh := h.fresh + 3, oracle := h.oracle.tail.tail.tail,
               trace := Event.calloc (some (h.fresh + 2)) :: Event.calloc (some (h.fresh + 1))
                 :: Event.calloc (some h.fresh) :: h.trace } w 0 (by omega)
    have hW0 : 0 < w := by omega
    simp only [hW0, if_true] at hc
    simp only [linked_length, init_heap]
    rw [hc, List.range_eq_range']

/-- Witness of C17: width 3 on the empty heap. -/
theorem tst_init_writes_only_middle_witness :
    ∃ t l b s ns,
      (tst_init 3 heap0).1 = some t ∧
      (tst_init 3 heap0).2.get t = some (Obj.tstO s) ∧
      s.node_lines = some l ∧
      (tst_init 3 heap0).2.get l = some (Obj.linesO
        { node_line := some { block := b, idx := 0 }, next := none }) ∧
      (tst_init 3 heap0).2.get b = some (Obj.nodesO ns) ∧
      (ns.length : Int) = 3 ∧
      (∀ n ∈ ns, n.value = 0 ∧ n.left = none ∧ n.right = none) ∧
      (tst_init 3 heap0).2.cells.drop 3 = heap0.cells ∧
      (∀ r ∈ s.head, r = none) ∧
      (∀ fuel, live_nodes (tst_init 3 heap0).2 s fuel = []) ∧
      free_chain (tst_init 3 heap0).2 (ns.length + 1) s.free_list
        = (List.range ns.length).map (fun i => { block := b, idx := i }) :=
  tst_init_writes_only_middle 3 heap0 (by decide) (by decide) (by decide) (by decide)

end Tst

namespace Art

theorem CR_ne_LF : CR ≠ LF := by decide
theorem DOT_ne_CR : DOT ≠ CR := by decide
theorem DOT_ne_LF : DOT ≠ LF := by decide

theorem take_line_append (a x : List Char) (raw rest : List Char)
    (h : take_line a = some (raw, rest)) : take_line (a ++ x) = some (raw, rest ++ x) := by
  induction a generalizing raw rest with
  | nil => simp [take_line] at h
  | cons c r ih =>
    simp only [take_line, List.cons_append, List.append_eq] at h ⊢
    by_cases hc : c = CR ∧ r.head? = some LF
    · rw [if_pos hc] at h
      obtain ⟨hc1, hc2⟩ := hc
      cases r with
      | nil => simp at hc2
      | cons d r2 =>
        simp only [List.head?_cons, Option.some.injEq] at hc2
        simp only [List.tail_cons, Option.some.injEq, Prod.mk.injEq] at h
        obtain ⟨rfl, rfl⟩ := h
        simp [hc1, hc2]
    · rw [if_neg hc] at h
      cases hr : take_line r with
      | none => rw [hr] at h; simp at h
      | some p =>
        rw [hr] at h
        simp only [Option.map_some', Option.some.injEq, Prod.mk.injEq] at h
        obtain ⟨rfl, rfl⟩ := h
        have hne : r ≠ [] := by rintro rfl; simp [take_line] at hr
        have hhead : (r ++ x).head? = r.head? := by
          cases r with
          | nil => exact absurd rfl hne
          | cons d r2 => rfl
        rw [hhead, if_neg hc, ih p.1 p.2 (by rw [hr])]
        rfl

theorem take_line_eq (a raw rest : List Char) (h : take_line a = some (raw, rest)) :
    a = raw ++ CR :: LF :: rest := by
  induction a generalizing raw rest with
  | nil => simp [take_line] at h
  | cons c r ih =>
    simp only [take_line] at h
    by_cases hc : c = CR ∧ r.head? = some LF
    · rw [if_pos hc] at h
      obtain ⟨hc1, hc2⟩ := hc
      cases r with
      | nil => simp at hc2
      | cons d r2 =>
        simp only [List.head?_cons, Option.some.injEq] at hc2
        simp only [List.tail_cons, Option.some.injEq, Prod.mk.injEq] at h
        obtain ⟨rfl, rfl⟩ := h
        simp [hc1, hc2]
    · rw [if_neg hc] at h
      cases hr : take_line r with
      | none => rw [hr] at h; simp at h
      | some p =>
        rw [hr] at h
        simp only [Option.map_some', Option.some.injEq, Prod.mk.injEq] at h
        obtain ⟨rfl, rfl⟩ := h
        rw [ih p.1 p.2 (by rw [hr])]
        rfl

theorem take_line_crlf (l rest : List Char) (hl : LF ∉ l) :
    take_line (l ++ CR :: LF :: rest) = some (l, rest) := by
  induction l with
  | nil => simp [take_line]
  | cons c r ih =>
    have hr : LF ∉ r := fun h => hl (List.mem_cons_of_mem _ h)
    simp only [List.cons_append, take_line, List.append_eq]
    have hc : ¬ (c = CR ∧ (r ++ CR :: LF :: rest).head? = some LF) := by
      rintro ⟨_, h2⟩
      cases r with
      | nil => simp at h2; exact CR_ne_LF h2
      | cons d r2 =>
        simp only [List.cons_append, List.head?_cons, Option.some.injEq] at h2
        exact hl (by simp [h2])
    rw [if_neg hc, ih hr]
    rfl

theorem line_step_In (conf : Conf) (cp : CHANNEL) (raw : List Char) :
    (line_step conf cp raw).In = cp.In := rfl

theorem line_step_Next (conf : Conf) (cp : CHANNEL) (raw : List Char) :
    (line_step conf cp raw).Next = cp.Next + raw.length + 2 := rfl

theorem line_step_Start (conf : Conf) (cp : CHANNEL) (raw : List Char) :
    (line_step conf cp raw).Start = cp.Start := rfl

theorem line_step_ext (conf : Conf) (cp : CHANNEL) (raw x : List Char) :
    line_step conf { cp with In := x } raw = { line_step conf cp raw with In := x } := rfl

theorem parse_lines_fuel (conf : Conf) :
    ∀ (n fuel1 fuel2 : Nat) (cp : CHANNEL), cp.In.length - cp.Next ≤ n → n ≤ fuel1 → n ≤ fuel2 →
      parse_lines conf fuel1 cp = parse_lines conf fuel2 cp := by
  intro n
  induction n with
  | zero =>
    intro fuel1 fuel2 cp hR _ _
    have hd : cp.In.drop cp.Next = [] := by
      apply List.drop_eq_nil_of_le; omega
    cases fuel1 <;> cases fuel2 <;> simp [parse_lines, hd, take_line]
  | succ n ih =>
    intro fuel1 fuel2 cp hR h1 h2
    obtain ⟨f1, rfl⟩ : ∃ f, fuel1 = f + 1 := ⟨fuel1 - 1, by omega⟩
    obtain ⟨f2, rfl⟩ : ∃ f, fuel2 = f + 1 := ⟨fuel2 - 1, by omega⟩
    simp only [parse_lines]
    split
    · rfl
    · cases ht : take_line (cp.In.drop cp.Next) with
      | none => rfl
      | some p =>
        obtain ⟨raw, rest⟩ := p
        simp only
        have hlen := congrArg List.length (take_line_eq _ _ _ ht)
        simp only [List.length_drop, List.length_append, List.length_cons] at hlen
        apply ih
        · rw [line_step_In, line_step_Next]; omega
        · omega
        · omega

theorem ARTparse_unfold (conf : Conf) (cp : CHANNEL) :
    ARTparse conf cp =
      if is_terminal cp.State then cp
      else
        match take_line (cp.In.drop cp.Next) with
        | none => cp
        | some (raw, _) => ARTparse conf (line_step conf cp raw) := by
  unfold ARTparse
  cases hR : cp.In.length - cp.Next with
  | zero =>
    have hd : cp.In.drop cp.Next = [] := by
      apply List.drop_eq_nil_of_le; omega
    simp [parse_lines, hd, take_line]
  | succ k =>
    simp only [parse_lines]
    split
    · rfl
    · cases ht : take_line (cp.In.drop cp.Next) with
      | none => rfl
      | some p =>
        obtain ⟨raw, rest⟩ := p
        simp only
        have hlen := congrArg List.length (take_line_eq _ _ _ ht)
        simp only [List.length_drop, List.length_append, List.length_cons] at hlen
        apply parse_lines_fuel conf ((line_step conf cp raw).In.length - (line_step conf cp raw).Next)
        · exact le_refl _
        · rw [line_step_In, line_step_Next]; omega
        · exact le_refl _

theorem ARTparse_terminal (conf : Conf) (cp : CHANNEL) (h : is_terminal cp.State = true) :
    ARTparse conf cp = cp := by
  rw [ARTparse_unfold, if_pos h]

theorem ARTparse_In (conf : Conf) :
    ∀ (n : Nat) (cp : CHANNEL), cp.In.length - cp.Next ≤ n → (ARTparse conf cp).In = cp.In := by
  intro n
  induction n with
  | zero =>
    intro cp hR
    have hd : cp.In.drop cp.Next = [] := by
      apply List.drop_eq_nil_of_le; omega
    rw [ARTparse_unfold]
    split
    · rfl
    · simp [hd, take_line]
  | succ n ih =>
    intro cp hR
    rw [ARTparse_unfold]
    split
    · rfl
    · cases ht : take_line (cp.In.drop cp.Next) with
      | none => rfl
      | some p =>
        obtain ⟨raw, rest⟩ := p
        simp only
        have hlen := congrArg List.length (take_line_eq _ _ _ ht)
        simp only [List.length_drop, List.length_append, List.length_cons] at hlen
        rw [ih (line_step conf cp raw) (by rw [line_step_In, line_step_Next]; omega)]
        rfl

theorem recv_In (cp : CHANNEL) (x : List Char) : (cp.recv x).In = cp.In ++ x := rfl
theorem recv_State (cp : CHANNEL) (x : List Char) : (cp.recv x).State = cp.State := rfl
theorem recv_Next (cp : CHANNEL) (x : List Char) : (cp.recv x).Next = cp.Next := rfl
theorem recv_Start (cp : CHANNEL) (x : List Char) : (cp.recv x).Start = cp.Start := rfl

theorem recv_nil (cp : CHANNEL) : cp.recv [] = cp := by
  cases cp; simp [CHANNEL.recv]

theorem recv_recv (cp : CHANNEL) (x y : List Char) : (cp.recv x).recv y = cp.recv (x ++ y) := by
  cases cp; simp [CHANNEL.recv]

theorem line_step_recv (conf : Conf) (cp : CHANNEL) (raw x : List Char) :
    line_step conf (cp.recv x) raw = (line_step conf cp raw).recv x := rfl

theorem ARTparse_extend (conf : Conf) (x : List Char) :
    ∀ (n : Nat) (cp : CHANNEL), cp.In.length - cp.Next ≤ n →
      ARTparse conf ((ARTparse conf cp).recv x) = ARTparse conf (cp.recv x) := by
  intro n
  induction n with
  | zero =>
    intro cp hR
    have hd : cp.In.drop cp.Next = [] := by
      apply List.drop_eq_nil_of_le; omega
    have : ARTparse conf cp = cp := by
      rw [ARTparse_unfold]
      split
      · rfl
      · simp [hd, take_line]
    rw [this]
  | succ n ih =>
    intro cp hR
    by_cases hterm : is_terminal cp.State = true
    · rw [ARTparse_terminal conf cp hterm]
    · cases ht : take_line (cp.In.drop cp.Next) with
      | none =>
        have : ARTparse conf cp = cp := by
          rw [ARTparse_unfold, if_neg hterm, ht]
        rw [this]
      | some p =>
        obtain ⟨raw, rest⟩ := p
        have hlen := congrArg List.length (take_line_eq _ _ _ ht)
        simp only [List.length_drop, List.length_append, List.length_cons] at hlen
        have e1 : ARTparse conf cp = ARTparse conf (line_step conf cp raw) := by
          rw [ARTparse_unfold conf cp, if_neg hterm, ht]
        have hdrop : (cp.In ++ x).drop cp.Next = cp.In.drop cp.Next ++ x := by
          apply List.drop_append_of_le_length; omega
        have e2 : ARTparse conf (cp.recv x) = ARTparse conf ((line_step conf cp raw).recv x) := by
          rw [ARTparse_unfold conf (cp.recv x), recv_State, recv_In, recv_Next]
          rw [if_neg hterm, hdrop, take_line_append _ _ _ _ ht]
          rfl
        rw [e1, e2]
        exact ih (line_step conf cp raw) (by rw [line_step_In, line_step_Next]; omega)

theorem ARTparse_feed (conf : Conf) (cp : CHANNEL) (x : List Char) :
    ARTparse conf ((ARTparse conf cp).recv x) = ARTparse conf (cp.recv x) :=
  ARTparse_extend conf x _ cp (le_refl _)

theorem ARTparse_idem (conf : Conf) (cp : CHANNEL) :
    ARTparse conf (ARTparse conf cp) = ARTparse conf cp := by
  have h := ARTparse_feed conf cp []
  rw [recv_nil, recv_nil] at h
  exact h

theorem ARTparse_In_eq (conf : Conf) (cp : CHANNEL) : (ARTparse conf cp).In = cp.In :=
  ARTparse_In conf _ cp (le_refl _)

theorem with_In_self (cp : CHANNEL) : cp.with_In cp.In = cp := by
  cases cp; rfl

theorem recv_with_In (cp : CHANNEL) (x : List Char) : (cp.recv x) = cp.with_In (cp.In ++ x) := rfl

theorem slow_loop_eq (conf : Conf) :
    ∀ (w : List Char) (cp : CHANNEL),
      (slow_loop conf w (ARTparse conf cp)).with_In (cp.In ++ w) = ARTparse conf (cp.recv w) := by
  intro w
  induction w with
  | nil =>
    intro cp
    simp only [slow_loop, List.append_nil, recv_nil]
    rw [← ARTparse_In_eq conf cp, with_In_self]
  | cons c rest ih =>
    intro cp
    have hfeed := ARTparse_feed conf cp [c]
    have hIn1 : (ARTparse conf (cp.recv [c])).In = cp.In ++ [c] := by
      rw [ARTparse_In_eq, recv_In]
    have hnext : ARTparse conf (cp.recv (c :: rest))
        = ARTparse conf ((ARTparse conf (cp.recv [c])).recv rest) := by
      rw [ARTparse_feed, recv_recv]
      rfl
    simp only [slow_loop]
    rw [hfeed]
    split
    · rename_i hbreak
      have hterm : is_terminal ((ARTparse conf (cp.recv [c])).recv rest).State = true := by
        rw [recv_State]
        obtain ⟨_, h1, h2, h3⟩ := hbreak
        revert h1 h2 h3
        cases (ARTparse conf (cp.recv [c])).State <;> simp [is_terminal]
      rw [hnext, ARTparse_terminal conf _ hterm,
        recv_with_In (ARTparse conf (cp.recv [c])) rest, hIn1]
      simp
    · have h3 := ih (cp.recv [c])
      rw [recv_recv, recv_In] at h3
      simpa using h3

theorem start_fixpoint (conf : Conf) (filler : List Char) :
    ARTparse conf (start_channel filler) = start_channel filler := by
  simp [ARTparse, ARTprepare, parse_lines, start_channel]

theorem ok_article_fast_eq (conf : Conf) (article filler : List Char) :
    ok_article conf article filler false
      = ARTparse conf ((start_channel filler).recv (ToWireFmt article)) := by
  simp [ok_article, start_channel]

theorem ok_article_slow_eq (conf : Conf) (article filler : List Char) :
    ok_article conf article filler true
      = slow_loop conf (ToWireFmt article) (start_channel filler) := by
  simp [ok_article, start_channel]

theorem ok_article_slow (conf : Conf) (article filler : List Char) :
    (ok_article conf article filler true).with_In (filler ++ ToWireFmt article)
      = ok_article conf article filler false := by
  have h := slow_loop_eq conf (ToWireFmt article) (start_channel filler)
  rw [start_fixpoint] at h
  rw [ok_article_slow_eq, ok_article_fast_eq]
  exact h

theorem slow_fields (conf : Conf) (article filler : List Char) :
    (ok_article conf article filler true).State = (ok_article conf article filler false).State ∧
    (ok_article conf article filler true).Error = (ok_article conf article filler false).Error ∧
    (ok_article conf article filler true).Next = (ok_article conf article filler false).Next ∧
    (ok_article conf article filler true).Start = (ok_article conf article filler false).Start := by
  rw [← ok_article_slow conf article filler]
  exact ⟨rfl, rfl, rfl, rfl⟩

/-- C6: for every article (and every filler placed before it), the channel that received the wire
form one byte at a time, with `ARTparse` called after each byte, ends with the same `State`, the
same `Error` and the same `Next - Start` as the channel that received the wire form at once. -/
theorem ARTparse_fragmentation_invariant (conf : Conf) (article filler : List Char) :
    (ok_article conf article filler true).State = (ok_article conf article filler false).State ∧
    (ok_article conf article filler true).Error = (ok_article conf article filler false).Error ∧
    (ok_article conf article filler true).Next - (ok_article conf article filler true).Start
      = (ok_article conf article filler false).Next
        - (ok_article conf article filler false).Start := by
  rw [← ok_article_slow conf article filler]
  exact ⟨rfl, rfl, rfl⟩

theorem line_step_shift (conf : Conf) (cp : CHANNEL) (raw pre : List Char) :
    line_step conf (cp.shift pre) raw = (line_step conf cp raw).shift pre := by
  have e : cp.Next + raw.length + 2 + pre.length - (cp.Start + pre.length)
      = cp.Next + raw.length + 2 - cp.Start := by omega
  have e2 : cp.Next + pre.length + raw.length + 2 = cp.Next + raw.length + 2 + pre.length := by
    omega
  simp only [line_step, CHANNEL.shift, CHANNEL.parse, e2, e]

theorem parse_lines_shift (conf : Conf) (pre : List Char) :
    ∀ (fuel : Nat) (cp : CHANNEL),
      parse_lines conf fuel (cp.shift pre) = (parse_lines conf fuel cp).shift pre := by
  intro fuel
  induction fuel with
  | zero => intro cp; rfl
  | succ fuel ih =>
    intro cp
    have hd : (cp.shift pre).In.drop (cp.shift pre).Next = cp.In.drop cp.Next := by
      show (pre ++ cp.In).drop (cp.Next + pre.length) = _
      rw [Nat.add_comm, List.drop_append]
    simp only [parse_lines]
    rw [hd]
    have hs : (cp.shift pre).State = cp.State := rfl
    rw [hs]
    split
    · rfl
    · cases ht : take_line (cp.In.drop cp.Next) with
      | none => rfl
      | some p =>
        simp only
        rw [line_step_shift, ih]

theorem ARTparse_shift (conf : Conf) (cp : CHANNEL) (pre : List Char) :
    ARTparse conf (cp.shift pre) = (ARTparse conf cp).shift pre := by
  unfold ARTparse
  have : (cp.shift pre).In.length - (cp.shift pre).Next = cp.In.length - cp.Next := by
    show (pre ++ cp.In).length - (cp.Next + pre.length) = _
    rw [List.length_append]; omega
  rw [this, parse_lines_shift]

theorem ok_article_shift (conf : Conf) (article filler : List Char) :
    ok_article conf article filler false = (ok_article conf article [] false).shift filler := by
  rw [ok_article_fast_eq, ok_article_fast_eq, ← ARTparse_shift]
  simp [CHANNEL.shift, CHANNEL.recv, ARTprepare, fake_channel, start_channel]

/-- C8: for every article and every filler of `k` bytes, parsing the wire form placed after the
filler, with `Start = Next = k`, ends with the same `State`, the same `Error` and the same
`Next - Start` as parsing it at offset 0, whether the bytes arrive at once or one at a time. -/
theorem ARTparse_offset_invariant (conf : Conf) (article filler : List Char) (slow : Bool) :
    (ok_article conf article filler slow).State = (ok_article conf article [] slow).State ∧
    (ok_article conf article filler slow).Error = (ok_article conf article [] slow).Error ∧
    (ok_article conf article filler slow).Next - (ok_article conf article filler slow).Start
      = (ok_article conf article [] slow).Next - (ok_article conf article [] slow).Start := by
  have hfast : (ok_article conf article filler false).State
        = (ok_article conf article [] false).State ∧
      (ok_article conf article filler false).Error = (ok_article conf article [] false).Error ∧
      (ok_article conf article filler false).Next - (ok_article conf article filler false).Start
        = (ok_article conf article [] false).Next - (ok_article conf article [] false).Start := by
    rw [ok_article_shift conf article filler]
    refine ⟨rfl, rfl, ?_⟩
    show (ok_article conf article [] false).Next + filler.length
      - ((ok_article conf article [] false).Start + filler.length) = _
    omega
  cases slow with
  | false => exact hfast
  | true =>
    obtain ⟨a1, a2, a3, a4⟩ := slow_fields conf article filler
    obtain ⟨b1, b2, b3, b4⟩ := slow_fields conf article []
    obtain ⟨c1, c2, c3⟩ := hfast
    exact ⟨by rw [a1, b1, c1], by rw [a2, b2, c2], by rw [a3, a4, b3, b4, c3]⟩

theorem native_lines_noLF (s : List Char) : ∀ l ∈ native_lines s, LF ∉ l := by
  induction s with
  | nil => simp [native_lines]
  | cons c r ih =>
    intro l hl
    simp only [native_lines] at hl
    by_cases hc : c = LF
    · rw [if_pos hc] at hl
      rcases List.mem_cons.1 hl with h | h
      · subst h; simp
      · exact ih l h
    · rw [if_neg hc] at hl
      cases hn : native_lines r with
      | nil =>
        rw [hn] at hl
        simp only [List.mem_singleton] at hl
        subst hl
        simp [Ne.symm hc]
      | cons l1 ls =>
        rw [hn] at hl ih
        rcases List.mem_cons.1 hl with h | h
        · subst h
          have := ih l1 (List.mem_cons_self _ _)
          simp [Ne.symm hc, this]
        · exact ih l (List.mem_cons_of_mem _ h)

theorem stuff_noLF (l : List Char) (h : LF ∉ l) : LF ∉ stuff l := by
  cases l with
  | nil => simp [stuff]
  | cons c r =>
    simp only [stuff]
    split
    · intro hm
      rcases List.mem_cons.1 hm with h1 | h1
      · exact DOT_ne_LF h1.symm
      · exact h h1
    · exact h

theorem stuff_ne_dot (l : List Char) : stuff l ≠ [DOT] := by
  cases l with
  | nil => simp [stuff]
  | cons c r =>
    simp only [stuff]
    split
    · simp
    · rename_i hc
      intro h
      simp only [List.cons.injEq] at h
      exact hc h.1

theorem unstuff_stuff (l : List Char) : unstuff (stuff l) = l := by
  cases l with
  | nil => rfl
  | cons c r =>
    simp only [stuff]
    split
    · rename_i hc
      simp [unstuff, hc]
    · rename_i hc
      cases r with
      | nil => rfl
      | cons d r2 => simp [unstuff, hc]

theorem stuff_eq_nil (l : List Char) : stuff l = [] ↔ l = [] := by
  cases l with
  | nil => simp [stuff]
  | cons c r =>
    simp only [stuff]
    split <;> simp

theorem close_article_terminal (conf : Conf) (p : Parse) (size : Nat) :
    is_terminal (close_article conf p size).State = true := by
  unfold close_article
  split
  · rfl
  · split
    · simp only
      split <;> rfl
    · split <;> rfl

theorem ARTerror_State (p : Parse) (m : String) : (ARTerror p m).State = p.State := by
  unfold ARTerror; split <;> rfl

theorem content_line_State (conf : Conf) (p : Parse) (raw : List Char)
    (h : is_terminal p.State = false) : is_terminal (content_line conf p raw).State = false := by
  unfold content_line
  repeat' split
  all_goals simp_all [ARTerror_State, is_terminal]

theorem line_parse_State (conf : Conf) (p : Parse) (raw : List Char) (size : Nat)
    (h : is_terminal p.State = false) (hraw : raw ≠ [DOT]) :
    is_terminal (line_parse conf p raw size).State = false := by
  unfold line_parse
  rw [if_neg hraw]
  split
  · rfl
  · exact content_line_State conf p raw h

theorem drop_past_line (buf raw rest : List Char) (n : Nat)
    (h : buf.drop n = raw ++ CR :: LF :: rest) : buf.drop (n + raw.length + 2) = rest := by
  have h1 : buf.drop (n + raw.length + 2) = (buf.drop n).drop (raw.length + 2) := by
    rw [List.drop_drop, Nat.add_assoc, Nat.add_comm n]
  rw [h1, h]
  have h2 : raw ++ CR :: LF :: rest = (raw ++ [CR, LF]) ++ rest := by simp
  rw [h2]
  have h3 : raw.length + 2 = (raw ++ [CR, LF]).length := by simp
  rw [h3]
  exact List.drop_left _ _

theorem parse_encoded (conf : Conf) :
    ∀ (ls : List (List Char)) (cp : CHANNEL) (tail : List Char),
      (∀ l ∈ ls, LF ∉ l) → is_terminal cp.State = false →
      cp.In.drop cp.Next = encode_lines ls ++ tail →
      ARTparse conf cp = line_step conf (steps conf cp ls) [DOT] := by
  intro ls
  induction ls with
  | nil =>
    intro cp tail _ hterm hdrop
    have hterm2 : ¬ is_terminal cp.State = true := by simp [hterm]
    have ht : take_line (cp.In.drop cp.Next) = some ([DOT], tail) := by
      rw [hdrop]
      exact take_line_crlf [DOT] tail (by simp [Ne.symm DOT_ne_LF])
    rw [ARTparse_unfold, if_neg hterm2, ht]
    simp only [steps]
    apply ARTparse_terminal
    show is_terminal (line_parse conf cp.parse [DOT] _).State = true
    simp only [line_parse, if_true]
    exact close_article_terminal _ _ _
  | cons l ls ih =>
    intro cp tail hls hterm hdrop
    have hterm2 : ¬ is_terminal cp.State = true := by simp [hterm]
    have hl : LF ∉ stuff l := stuff_noLF l (hls l (List.mem_cons_self _ _))
    have hd2 : cp.In.drop cp.Next = stuff l ++ CR :: LF :: (encode_lines ls ++ tail) := by
      rw [hdrop]; simp [encode_lines]
    have ht : take_line (cp.In.drop cp.Next) = some (stuff l, encode_lines ls ++ tail) := by
      rw [hd2]
      exact take_line_crlf _ _ hl
    rw [ARTparse_unfold, if_neg hterm2, ht]
    simp only [steps]
    apply ih (line_step conf cp (stuff l)) tail (fun x hx => hls x (List.mem_cons_of_mem _ hx))
    · exact line_parse_State conf cp.parse (stuff l) _ hterm (stuff_ne_dot l)
    · rw [line_step_In, line_step_Next]
      exact drop_past_line _ _ _ _ hd2

theorem steps_In (conf : Conf) : ∀ (ls : List (List Char)) (cp : CHANNEL),
    (steps conf cp ls).In = cp.In := by
  intro ls
  induction ls with
  | nil => intro cp; rfl
  | cons l ls ih => intro cp; simp only [steps]; rw [ih]; rfl

theorem steps_Start (conf : Conf) : ∀ (ls : List (List Char)) (cp : CHANNEL),
    (steps conf cp ls).Start = cp.Start := by
  intro ls
  induction ls with
  | nil => intro cp; rfl
  | cons l ls ih => intro cp; simp only [steps]; rw [ih]; rfl

theorem steps_Next (conf : Conf) : ∀ (ls : List (List Char)) (cp : CHANNEL),
    (steps conf cp ls).Next = cp.Next + lines_size ls := by
  intro ls
  induction ls with
  | nil => intro cp; rfl
  | cons l ls ih =>
    intro cp
    simp only [steps, lines_size]
    rw [ih, line_step_Next]
    omega

theorem steps_parse (conf : Conf) : ∀ (ls : List (List Char)) (cp : CHANNEL),
    cp.Start ≤ cp.Next →
    (steps conf cp ls).parse = psteps conf cp.parse (cp.Next - cp.Start) ls := by
  intro ls
  induction ls with
  | nil => intro cp _; rfl
  | cons l ls ih =>
    intro cp hle
    simp only [steps, psteps]
    rw [ih _ (by rw [line_step_Start, line_step_Next]; omega)]
    have e : cp.Next + (stuff l).length + 2 - cp.Start
        = cp.Next - cp.Start + (stuff l).length + 2 := by omega
    have hp : (line_step conf cp (stuff l)).parse
        = line_parse conf cp.parse (stuff l) (cp.Next + (stuff l).length + 2 - cp.Start) := rfl
    rw [hp, line_step_Start, line_step_Next, e]

theorem encode_lines_length (ls : List (List Char)) :
    (encode_lines ls).length = lines_size ls + 3 := by
  induction ls with
  | nil => rfl
  | cons l ls ih =>
    simp only [encode_lines, lines_size, List.length_append, List.length_cons, ih]
    omega

/-- The channel `ok_article` ends with when the wire form is parsed at once. -/
theorem ok_article_fast (conf : Conf) (article filler : List Char) :
    (ok_article conf article filler false).parse
        = close_article conf (psteps conf fresh_parse 0 (native_lines article))
            (ToWireFmt article).length ∧
    (ok_article conf article filler false).Start = filler.length ∧
    (ok_article conf article filler false).Next = filler.length + (ToWireFmt article).length := by
  have hdrop : ((start_channel filler).recv (ToWireFmt article)).In.drop
      ((start_channel filler).recv (ToWireFmt article)).Next
      = encode_lines (native_lines article) ++ [] := by
    simp [CHANNEL.recv, ARTprepare, ToWireFmt, start_channel]
  have hp := parse_encoded conf (native_lines article)
    ((start_channel filler).recv (ToWireFmt article)) []
    (native_lines_noLF article) rfl hdrop
  have e1 : ((start_channel filler).recv (ToWireFmt article)).Next = filler.length := rfl
  have e2 : ((start_channel filler).recv (ToWireFmt article)).Start = filler.length := rfl
  have e3 : ((start_channel filler).recv (ToWireFmt article)).parse = fresh_parse := rfl
  rw [ok_article_fast_eq, hp]
  refine ⟨?_, ?_, ?_⟩
  · show line_parse conf (steps conf _ _).parse [DOT] _ = _
    rw [steps_parse conf _ _ (le_refl _), steps_Next, steps_Start]
    simp only [line_parse, if_true]
    rw [e1, e2, e3, ToWireFmt, encode_lines_length]
    congr 1
    · simp
    · simp only [List.length_singleton]; omega
  · rw [line_step_Start, steps_Start]; rfl
  · rw [line_step_Next, steps_Next, e1, ToWireFmt, encode_lines_length]
    simp only [List.length_singleton]
    omega

/-- C7: for every article, once its whole wire form has been delivered and parsed, at once or
byte by byte, at any offset, `Next - Start` is exactly the wire length, and the channel is in a
terminal state. -/
theorem ARTparse_consumes_wirelen (conf : Conf) (article filler : List Char) (slow : Bool) :
    (ok_article conf article filler slow).Next - (ok_article conf article filler slow).Start
      = (ToWireFmt article).length ∧
    is_terminal (ok_article conf article filler slow).State = true := by
  obtain ⟨hp, hs, hn⟩ := ok_article_fast conf article filler
  have hfast : (ok_article conf article filler false).Next
      - (ok_article conf article filler false).Start = (ToWireFmt article).length := by
    rw [hs, hn]; omega
  have hterm : is_terminal (ok_article conf article filler false).State = true := by
    have : (ok_article conf article filler false).State
        = (ok_article conf article filler false).parse.State := rfl
    rw [this, hp]
    exact close_article_terminal _ _ _
  cases slow with
  | false => exact ⟨hfast, hterm⟩
  | true =>
    obtain ⟨a1, _, a3, a4⟩ := slow_fields conf article filler
    exact ⟨by rw [a3, a4, hfast], by rw [a1, hterm]⟩

theorem psteps_append (conf : Conf) : ∀ (a b : List (List Char)) (p : Parse) (sz : Nat),
    psteps conf p sz (a ++ b) = psteps conf (psteps conf p sz a) (sz + lines_size a) b := by
  intro a
  induction a with
  | nil => intro b p sz; simp [psteps, lines_size]
  | cons l a ih =>
    intro b p sz
    show psteps conf p sz (l :: (a ++ b)) = _
    simp only [psteps, lines_size]
    rw [ih]
    congr 1
    omega

theorem lines_size_append (a b : List (List Char)) :
    lines_size (a ++ b) = lines_size a + lines_size b := by
  induction a with
  | nil => simp [lines_size]
  | cons l a ih =>
    show lines_size (l :: (a ++ b)) = _
    simp only [lines_size, ih]; omega

theorem psteps_headers (conf : Conf) : ∀ (hdrs : List (List Char)) (p : Parse) (sz : Nat),
    p.State = .CSgetheader →
    (∀ h ∈ hdrs, h ≠ [] ∧ header_error conf (stuff h) = none) →
    sz + lines_size hdrs ≤ conf.maxartsize →
    psteps conf p sz hdrs = { p with HeaderLines := p.HeaderLines + hdrs.length } := by
  intro hdrs
  induction hdrs with
  | nil => intro p sz _ _ _; simp [psteps]
  | cons l hdrs ih =>
    intro p sz hst hall hsz
    simp only [lines_size] at hsz
    obtain ⟨hne, herr⟩ := hall l (List.mem_cons_self _ _)
    have hne2 : stuff l ≠ [] := fun h => hne ((stuff_eq_nil l).1 h)
    have e1 : line_parse conf p (stuff l) (sz + (stuff l).length + 2)
        = { p with HeaderLines := p.HeaderLines + 1 } := by
      unfold line_parse
      rw [if_neg (stuff_ne_dot l), if_neg (by omega)]
      unfold content_line
      rw [hst]
      simp only [hne2, if_false, herr]
    simp only [psteps]
    rw [e1, ih { p with HeaderLines := p.HeaderLines + 1 } (sz + (stuff l).length + 2) hst
      (fun h hh => hall h (List.mem_cons_of_mem _ hh)) (by omega)]
    simp only [List.length_cons]
    congr 1
    omega

theorem psteps_body (conf : Conf) : ∀ (body : List (List Char)) (p : Parse) (sz : Nat),
    p.State = .CSgetbody →
    (∀ b ∈ body, NUL ∉ b) →
    sz + lines_size body ≤ conf.maxartsize →
    psteps conf p sz body = { p with BodyLines := p.BodyLines + body.length } := by
  intro body
  induction body with
  | nil => intro p sz _ _ _; simp [psteps]
  | cons l body ih =>
    intro p sz hst hall hsz
    simp only [lines_size] at hsz
    have hnul := hall l (List.mem_cons_self _ _)
    have e1 : line_parse conf p (stuff l) (sz + (stuff l).length + 2)
        = { p with BodyLines := p.BodyLines + 1 } := by
      unfold line_parse
      rw [if_neg (stuff_ne_dot l), if_neg (by omega)]
      unfold content_line
      rw [hst]
      simp only [unstuff_stuff, hnul, if_false]
    simp only [psteps]
    rw [e1, ih { p with BodyLines := p.BodyLines + 1 } (sz + (stuff l).length + 2) hst
      (fun h hh => hall h (List.mem_cons_of_mem _ hh)) (by omega)]
    simp only [List.length_cons]
    congr 1
    omega

theorem psteps_obeys (conf : Conf) (ls : List (List Char)) (h : obeys_rules conf ls)
    (hsz : lines_size ls ≤ conf.maxartsize) :
    (psteps conf fresh_parse 0 ls).State = .CSgetbody ∧
    (psteps conf fresh_parse 0 ls).Error = "" ∧
    (psteps conf fresh_parse 0 ls).BodyLines ≠ 0 := by
  obtain ⟨h1, h2, h3, h4, h5⟩ := h
  have hsplit := List.takeWhile_append_dropWhile (fun l => decide (l ≠ [])) ls
  generalize hH : ls.takeWhile (fun l => decide (l ≠ [])) = hdrs at h1 h2 hsplit
  generalize hR : ls.dropWhile (fun l => decide (l ≠ [])) = rest at h3 h4 h5 hsplit
  have hhall : ∀ h ∈ hdrs, h ≠ [] ∧ header_error conf (stuff h) = none := by
    intro h hh
    refine ⟨?_, h2 h hh⟩
    rw [← hH] at hh
    have := List.mem_takeWhile_imp hh
    simpa using this
  cases rest with
  | nil => exact absurd rfl h3
  | cons b body =>
    have hb : b = [] := by
      have := List.head_dropWhile_not (fun l => decide (l ≠ [])) ls (by rw [hR]; simp)
      simp only [hR, List.head_cons] at this
      simpa using this
    subst hb
    simp only [List.tail_cons] at h4 h5
    rw [← hsplit] at hsz ⊢
    rw [lines_size_append] at hsz
    simp only [lines_size] at hsz
    have hst : (stuff ([] : List Char)).length = 0 := rfl
    rw [psteps_append, psteps_headers conf hdrs fresh_parse 0 rfl hhall (by omega)]
    have hlen : hdrs.length ≠ 0 := by
      intro h0; exact h1 (List.length_eq_zero.1 h0)
    have e1 : line_parse conf
        { fresh_parse with HeaderLines := fresh_parse.HeaderLines + hdrs.length }
        (stuff []) (0 + lines_size hdrs + (stuff ([] : List Char)).length + 2)
        = { State := .CSgetbody, Error := "", HeaderLines := hdrs.length, BodyLines := 0 } := by
      unfold line_parse
      rw [if_neg (stuff_ne_dot []), if_neg (by omega)]
      simp [content_line, stuff, fresh_parse, hlen]
    simp only [psteps]
    rw [e1, psteps_body conf body _ _ rfl h5 (by omega)]
    refine ⟨rfl, rfl, ?_⟩
    simp only [Nat.zero_add]
    intro h0
    exact h4 (List.length_eq_zero.1 h0)

/-- The `State` and `Error` of the channel `ok_article` ends with, in either mode. -/
theorem ok_article_outcome (conf : Conf) (article filler : List Char) (slow : Bool) :
    (ok_article conf article filler slow).State
      = (close_article conf (psteps conf fresh_parse 0 (native_lines article))
          (ToWireFmt article).length).State ∧
    (ok_article conf article filler slow).Error
      = (close_article conf (psteps conf fresh_parse 0 (native_lines article))
          (ToWireFmt article).length).Error := by
  obtain ⟨hp, _, _⟩ := ok_article_fast conf article filler
  have hfast : (ok_article conf article filler false).State
        = (close_article conf (psteps conf fresh_parse 0 (native_lines article))
            (ToWireFmt article).length).State ∧
      (ok_article conf article filler false).Error
        = (close_article conf (psteps conf fresh_parse 0 (native_lines article))
            (ToWireFmt article).length).Error := by
    rw [← hp]
    exact ⟨rfl, rfl⟩
  cases slow with
  | false => exact hfast
  | true =>
    obtain ⟨a1, a2, _, _⟩ := slow_fields conf article filler
    exact ⟨by rw [a1, hfast.1], by rw [a2, hfast.2]⟩

/-- C9: with the maximum article size M of the configuration, an article that obeys the validator
rules and whose wire length is exactly M ends in `CSgotarticle` with an empty `Error`; every
article whose wire length N is greater than M ends in `CSgotlargearticle` with `Error` exactly
"437 Article of N bytes exceeds local limit of M bytes". -/
theorem ARTparse_size_limit (conf : Conf) (article filler : List Char) (slow : Bool) :
    (obeys_rules conf (native_lines article) →
      (ToWireFmt article).length = conf.maxartsize →
      (ok_article conf article filler slow).State = .CSgotarticle ∧
      (ok_article conf article filler slow).Error = "") ∧
    (conf.maxartsize < (ToWireFmt article).length →
      (ok_article conf article filler slow).State = .CSgotlargearticle ∧
      (ok_article conf article filler slow).Error
        = "437 Article of " ++ toString (ToWireFmt article).length
          ++ " bytes exceeds local limit of " ++ toString conf.maxartsize ++ " bytes") := by
  obtain ⟨hS, hE⟩ := ok_article_outcome conf article filler slow
  rw [hS, hE]
  constructor
  · intro hobey hlen
    have hW : (ToWireFmt article).length = lines_size (native_lines article) + 3 :=
      encode_lines_length _
    obtain ⟨h1, h2, h3⟩ := psteps_obeys conf (native_lines article) hobey (by omega)
    have hnot : ¬ ((psteps conf fresh_parse 0 (native_lines article)).State = .CSeatarticle
        ∨ conf.maxartsize < (ToWireFmt article).length) := by
      rw [h1]
      simp only [reduceCtorEq, false_or, not_lt]
      omega
    unfold close_article
    rw [if_neg hnot, if_neg (fun h => h3 h.2), if_neg h3]
    exact ⟨rfl, h2⟩
  · intro hlarge
    unfold close_article
    rw [if_pos (Or.inr hlarge)]
    exact ⟨rfl, rfl⟩

theorem native_lines_replicate (c : Char) (hc : c ≠ LF) (n : Nat) :
    native_lines (List.replicate (n + 1) c) = [List.replicate (n + 1) c] := by
  induction n with
  | zero => simp [native_lines, hc]
  | succ n ih =>
    rw [List.replicate_succ, native_lines, if_neg hc, ih]

theorem wirelen_replicate (c : Char) (hc : c ≠ LF) (hd : c ≠ DOT) (n : Nat) :
    (ToWireFmt (List.replicate (n + 1) c)).length = n + 6 := by
  rw [ToWireFmt, native_lines_replicate c hc n]
  simp [encode_lines, stuff, List.replicate_succ, hd]

/-- Witness of C9: under a limit of 14 bytes the article "S: x", empty line, "b" has a wire form
of exactly 14 bytes and is accepted; under the limit 8192 of the test an article of 8193 wire
bytes is rejected with the message of `artparse-t.c`. -/
theorem ARTparse_size_limit_witness :
    ((ok_article { fake_innconf with maxartsize := 14 } "S: x\n\nb\n".toList [] true).State
        = .CSgotarticle ∧
      (ok_article { fake_innconf with maxartsize := 14 } "S: x\n\nb\n".toList [] true).Error
        = "") ∧
    ((ok_article fake_innconf (List.replicate 8188 (Char.ofNat 97)) [] true).State
        = .CSgotlargearticle ∧
      (ok_article fake_innconf (List.replicate 8188 (Char.ofNat 97)) [] true).Error
        = "437 Article of 8193 bytes exceeds local limit of 8192 bytes") := by
  have hlen : (ToWireFmt (List.replicate 8188 (Char.ofNat 97))).length = 8193 :=
    wirelen_replicate (Char.ofNat 97) (by decide) (by decide) 8187
  have h2 := (ARTparse_size_limit fake_innconf (List.replicate 8188 (Char.ofNat 97)) [] true).2
    (by rw [hlen]; decide)
  rw [hlen] at h2
  exact ⟨(ARTparse_size_limit { fake_innconf with maxartsize := 14 } "S: x\n\nb\n".toList []
      true).1 (by decide) (by decide), h2.1, h2.2.trans (by decide)⟩

theorem take_line_none (p : List Char) (h : LF ∉ p) : take_line p = none := by
  cases ht : take_line p with
  | none => rfl
  | some r =>
    obtain ⟨raw, rest⟩ := r
    have := take_line_eq p raw rest ht
    exact absurd (by rw [this]; simp) h

theorem noLF_proper (x p q : List Char) (hx : LF ∉ x) (h : x ++ [LF] = p ++ q) (hq : q ≠ []) :
    LF ∉ p := by
  rcases List.append_eq_append_iff.1 h with ⟨a, hp, ha⟩ | ⟨c, hxc, _⟩
  · have hlen := congrArg List.length ha
    simp only [List.length_append, List.length_singleton] at hlen
    have hq1 : 1 ≤ q.length := by
      cases q with
      | nil => exact absurd rfl hq
      | cons _ _ => simp
    have : a = [] := List.length_eq_zero.1 (by omega)
    subst this
    simp only [List.append_nil] at hp
    rw [hp]
    exact hx
  · intro hm
    exact hx (by rw [hxc]; exact List.mem_append_left _ hm)

theorem ARTparse_wait (conf : Conf) (cp : CHANNEL) (h : LF ∉ cp.In.drop cp.Next) :
    ARTparse conf cp = cp := by
  rw [ARTparse_unfold]
  split
  · rfl
  · rw [take_line_none _ h]

theorem parse_prefix_open (conf : Conf) :
    ∀ (ls : List (List Char)) (cp : CHANNEL) (p q : List Char),
      (∀ l ∈ ls, LF ∉ l) → is_terminal cp.State = false →
      cp.In.drop cp.Next = p → encode_lines ls = p ++ q → q ≠ [] →
      is_terminal (ARTparse conf cp).State = false := by
  intro ls
  induction ls with
  | nil =>
    intro cp p q _ hterm hdrop henc hq
    have hx : LF ∉ [DOT, CR] := by decide
    have hp : LF ∉ p := noLF_proper [DOT, CR] p q hx (by simpa [encode_lines] using henc) hq
    rw [ARTparse_wait conf cp (by rw [hdrop]; exact hp)]
    exact hterm
  | cons l ls ih =>
    intro cp p q hls hterm hdrop henc hq
    have hterm2 : ¬ is_terminal cp.State = true := by simp [hterm]
    have hl : LF ∉ stuff l := stuff_noLF l (hls l (List.mem_cons_self _ _))
    have hls2 : ∀ x ∈ ls, LF ∉ x := fun x hx => hls x (List.mem_cons_of_mem _ hx)
    have henc2 : (stuff l ++ [CR, LF]) ++ encode_lines ls = p ++ q := by
      rw [← henc]; simp [encode_lines]
    have hne : encode_lines ls ≠ [] := by
      cases ls <;> simp [encode_lines]
    have hfull : ∀ a : List Char, p = stuff l ++ CR :: LF :: a → ∀ q2 : List Char,
        encode_lines ls = a ++ q2 → q2 ≠ [] →
        is_terminal (ARTparse conf cp).State = false := by
      intro a hp q2 henc3 hq2
      have ht : take_line (cp.In.drop cp.Next) = some (stuff l, a) := by
        rw [hdrop, hp]
        exact take_line_crlf _ _ hl
      rw [ARTparse_unfold, if_neg hterm2, ht]
      apply ih (line_step conf cp (stuff l)) a q2 hls2
      · exact line_parse_State conf cp.parse (stuff l) _ hterm (stuff_ne_dot l)
      · rw [line_step_In, line_step_Next]
        exact drop_past_line _ _ _ _ (by rw [hdrop, hp])
      · exact henc3
      · exact hq2
    rcases List.append_eq_append_iff.1 henc2 with ⟨a, hp, ha⟩ | ⟨c, hxc, hqc⟩
    · exact hfull a (by rw [hp]; simp) q ha hq
    · by_cases hc : c = []
      · subst hc
        simp only [List.append_nil] at hxc
        simp only [List.nil_append] at hqc
        exact hfull [] (by rw [← hxc]) (encode_lines ls) (by simp) hne
      · have hx : LF ∉ stuff l ++ [CR] := by
          intro hm
          rcases List.mem_append.1 hm with h1 | h1
          · exact hl h1
          · simp only [List.mem_singleton] at h1
            exact CR_ne_LF h1.symm
        have hp : LF ∉ p :=
          noLF_proper (stuff l ++ [CR]) p c hx (by rw [← hxc]; simp) hc
        rw [ARTparse_wait conf cp (by rw [hdrop]; exact hp)]
        exact hterm

theorem slow_loop_last (conf : Conf) : ∀ (w : List Char) (cp : CHANNEL),
    slow_loop conf w cp = (slow_trace conf w cp).getLastD cp := by
  intro w
  induction w with
  | nil => intro cp; rfl
  | cons c rest ih =>
    intro cp
    simp only [slow_loop, slow_trace]
    split
    · rfl
    · rw [List.getLastD_cons, ih]

theorem slow_trace_open (conf : Conf) : ∀ (w : List Char) (cp : CHANNEL),
    (∀ p q, w = p ++ q → p ≠ [] → q ≠ [] →
      is_terminal (ARTparse conf (cp.recv p)).State = false) →
    (slow_trace conf w (ARTparse conf cp)).length = w.length ∧
    ∀ x ∈ (slow_trace conf w (ARTparse conf cp)).dropLast, is_terminal x.State = false := by
  intro w
  induction w with
  | nil => intro cp _; simp [slow_trace]
  | cons c rest ih =>
    intro cp hopen
    have hfeed := ARTparse_feed conf cp [c]
    simp only [slow_trace]
    rw [hfeed]
    by_cases hrest : rest = []
    · subst hrest
      simp [slow_trace]
    · have h1 := hopen [c] rest rfl (by simp) hrest
      have hnb : ¬ (rest ≠ [] ∧ (ARTparse conf (cp.recv [c])).State ≠ .CSeatarticle
          ∧ (ARTparse conf (cp.recv [c])).State ≠ .CSgetheader
          ∧ (ARTparse conf (cp.recv [c])).State ≠ .CSgetbody) := by
        rintro ⟨_, a1, a2, a3⟩
        revert h1 a1 a2 a3
        cases (ARTparse conf (cp.recv [c])).State <;> simp [is_terminal]
      rw [if_neg hnb]
      have hih := ih (cp.recv [c]) (by
        intro p q hw hp hq
        rw [recv_recv]
        exact hopen (c :: p) q (by rw [hw]; rfl) (by simp) hq)
      obtain ⟨hlen, hmem⟩ := hih
      refine ⟨by simp [hlen], ?_⟩
      have hne : slow_trace conf rest (ARTparse conf (cp.recv [c])) ≠ [] := by
        intro h0
        rw [h0] at hlen
        exact hrest (List.length_eq_zero.1 hlen.symm)
      rw [List.dropLast_cons_of_ne_nil hne]
      intro x hx
      rcases List.mem_cons.1 hx with rfl | hx
      · exact h1
      · exact hmem x hx

/-- C12: when the wire bytes of an article are delivered one at a time, the loop makes one call
of `ARTparse` per byte, and after every call made before the last byte has been delivered the
`State` is `CSgetheader`, `CSgetbody` or `CSeatarticle`; only the channel after the last call,
the one `ok_article` ends with, is in a terminal state. This holds for every article, whatever
its headers and its size. -/
theorem ARTparse_no_early_terminal (conf : Conf) (article filler : List Char) :
    (slow_trace conf (ToWireFmt article) (start_channel filler)).length
      = (ToWireFmt article).length ∧
    (∀ (i : Nat) (cp : CHANNEL), i + 1 < (ToWireFmt article).length →
      (slow_trace conf (ToWireFmt article) (start_channel filler)).get? i = some cp →
      cp.State = .CSgetheader ∨ cp.State = .CSgetbody ∨ cp.State = .CSeatarticle) ∧
    (slow_trace conf (ToWireFmt article) (start_channel filler)).getLast?
      = some (ok_article conf article filler true) ∧
    is_terminal (ok_article conf article filler true).State = true := by
  have hopen : ∀ p q, ToWireFmt article = p ++ q → p ≠ [] → q ≠ [] →
      is_terminal (ARTparse conf ((start_channel filler).recv p)).State = false := by
    intro p q hw _ hq
    apply parse_prefix_open conf (native_lines article) ((start_channel filler).recv p) p q
      (native_lines_noLF article) rfl
    · simp [CHANNEL.recv, start_channel, ARTprepare]
    · exact hw
    · exact hq
  have htr := slow_trace_open conf (ToWireFmt article) (start_channel filler) hopen
  rw [start_fixpoint] at htr
  obtain ⟨hlen, hmem⟩ := htr
  have hterm : is_terminal (ok_article conf article filler true).State = true := by
    obtain ⟨a1, _, _, _⟩ := slow_fields conf article filler
    obtain ⟨hp, _, _⟩ := ok_article_fast conf article filler
    have : (ok_article conf article filler false).State
        = (ok_article conf article filler false).parse.State := rfl
    rw [a1, this, hp]
    exact close_article_terminal _ _ _
  refine ⟨hlen, ?_, ?_, hterm⟩
  · intro i cp hi hget
    have hd : (slow_trace conf (ToWireFmt article) (start_channel filler)).dropLast[i]?
        = some cp := by
      rw [List.getElem?_dropLast, if_pos (by rw [hlen]; omega)]
      simpa using hget
    have hx := hmem cp (List.getElem?_mem hd)
    revert hx
    cases cp.State <;> simp [is_terminal]
  · have hl := slow_loop_last conf (ToWireFmt article) (start_channel filler)
    rw [← ok_article_slow_eq] at hl
    have hne : slow_trace conf (ToWireFmt article) (start_channel filler) ≠ [] := by
      intro h0
      rw [h0] at hlen
      have : (ToWireFmt article).length = lines_size (native_lines article) + 3 :=
        encode_lines_length _
      simp at hlen
      omega
    rw [hl, List.getLastD_eq_getLast?, List.getLast?_eq_getLast _ hne]
    rfl

theorem ARTerror_set (p : Parse) (msg : String) (hp : p.Error = "") :
    (ARTerror p msg).Error = msg := by
  unfold ARTerror
  rw [if_pos hp]

/-- Witness of C12: the article "S: x", empty line, "b" has 14 wire bytes; the first
channel of the trace, the one after the first byte, is in one of the three open states. -/
theorem ARTparse_no_early_terminal_witness :
    0 + 1 < (ToWireFmt "S: x\n\nb\n".toList).length ∧
    (slow_trace fake_innconf (ToWireFmt "S: x\n\nb\n".toList) (start_channel [])).get? 0
      = some (ARTparse fake_innconf ((start_channel []).recv [Char.ofNat 83])) ∧
    ((ARTparse fake_innconf ((start_channel []).recv [Char.ofNat 83])).State = .CSgetheader
      ∨ (ARTparse fake_innconf ((start_channel []).recv [Char.ofNat 83])).State = .CSgetbody
      ∨ (ARTparse fake_innconf ((start_channel []).recv [Char.ofNat 83])).State
          = .CSeatarticle) :=
  ⟨by decide, by decide,
    (ARTparse_no_early_terminal fake_innconf "S: x\n\nb\n".toList []).2.1 0 _ (by decide)
      (by decide)⟩

end Art
